import Mathlib

/-!
Verification of the MSP/MAVLink bridge (`mavlink-msp-bridge`).

Shallow embedding of the repository's core algorithms and proofs about them:

* `src/msp.rs` — the MSP frame codec (`MspMessage::ser`, `checksum`, `encode`,
  `decode`, `fetch`) and the payload codecs generated by the `msp_codec!`
  macro (fields laid out little-endian in declaration order, no padding);
* `src/scheduler.rs` — the slot scheduler (`Schedule::insert`, `count`,
  `delete`);
* `src/core.rs` — the `MESSAGE_INTERVAL` arm of the event loop.

Machine bytes are modelled as naturals (`< 256` where it matters); `u16`/`u32`
values as naturals; fallible operations return `Except`/`Option`; a Rust panic
(out-of-bounds index, failed `assert!`) is modelled as `Option.none`.  The
`f64` arithmetic of the scheduler and of the event loop is modelled by exact
rational arithmetic with `f64::round`'s rounding rule (half away from zero);
all concrete inputs used in counterexamples keep the two semantics in exact
agreement (products of small dyadic or well-separated values).
-/

namespace MspBridge

/-! ## Little-endian scalars (`<$ty>::from_le_bytes` / `to_le_bytes`) -/

/-- The `w` little-endian bytes of the natural `v` (`to_le_bytes`). -/
def leBytes (w v : ℕ) : List ℕ :=
  (List.range w).map (fun k => v / 256 ^ k % 256)

/-- The natural denoted by a little-endian byte list (`from_le_bytes`). -/
def leVal (bs : List ℕ) : ℕ :=
  bs.foldr (fun b acc => b + 256 * acc) 0

/-! ## Payload codecs (`msp_codec!`, field arm and array arm)

A payload schema is the list of byte widths of its scalar fields, in
declaration order.  `MspPayload::encode` writes each field's little-endian
bytes at consecutive offsets (no padding); `MspPayload::decode` reads exactly
`SIZE` bytes (`read_exact`) and splits them at the same offsets.  Signed
scalars are modelled by their (bijective) unsigned bit patterns. -/

/-- Splits a `SIZE`-byte buffer into field values, one per schema entry
(the field initialisers of `msp_codec!`'s generated `decode`). -/
def splitFields : List ℕ → List ℕ → List ℕ
  | [], _ => []
  | w :: ws, buf => leVal (buf.take w) :: splitFields ws (buf.drop w)

/-- The `MspPayload::encode`: each field little-endian at consecutive offsets. -/
def encodePayload (schema vals : List ℕ) : List ℕ :=
  (List.zipWith leBytes schema vals).flatten

/-- The `MspPayload::decode`: `read_exact` of `SIZE` bytes, then field splitting.
Returns the decoded field values and the unread remainder of the stream;
`none` models a failed `read_exact` (too few bytes). -/
def decodePayload (schema b : List ℕ) : Option (List ℕ × List ℕ) :=
  if schema.sum ≤ b.length then
    some (splitFields schema (b.take schema.sum), b.drop schema.sum)
  else none

/-- A value fits a schema: one value per field, each within its scalar range. -/
def ValsValid (schema vals : List ℕ) : Prop :=
  List.Forall₂ (fun w v => v < 256 ^ w) schema vals

instance (schema vals : List ℕ) : Decidable (ValsValid schema vals) := by
  unfold ValsValid; infer_instance

/-- The payload schemas registered by the `msp_payload!` invocation in
`src/msp.rs` (field byte widths in declaration order). -/
def registeredSchemas : List (List ℕ) :=
  [ [1, 1, 1, 4],                -- MspIdent 100
    [2, 2, 2, 4, 1],             -- MspStatus 101
    [2, 2, 2, 2, 2, 2, 2, 2, 2], -- MspRawImu 102
    List.replicate 16 2,         -- MspServo 103
    List.replicate 16 2,         -- MspMotor 104
    List.replicate 16 2,         -- MspSetMotor 214
    List.replicate 16 2,         -- MspRc 105
    List.replicate 16 2,         -- MspSetRawRc 200
    [1, 1, 4, 4, 2, 2, 2],       -- MspRawGps 106
    [1, 1, 4, 4, 2, 2],          -- MspSetRawGps 201
    [2, 2, 1],                   -- MspCompGps 107
    [2, 2, 2],                   -- MspAttitude 108
    [4, 2],                      -- MspAltitude 109
    [1, 2, 2, 2],                -- MspAnalog 110
    [1, 1, 1, 1, 1, 1, 1],       -- MspRcTuning 111
    [1, 1, 1, 1, 1, 1, 1],       -- MspSetRcTuning 204
    [1, 1, 1, 1, 1, 1, 1, 1],    -- MspMotorPins 115
    [1, 4, 4, 4, 2, 2, 1],       -- MspWp 118
    [1, 4, 4, 4, 2, 2, 1],       -- MspSetWp 209
    [2] ]                        -- MspSetHead 211

/-! ## CRC-8/DVB-S2 (`crc_any::CRC::create_crc(0xd5, 8, 0x0, 0x0, false)`) -/

/-- One shift step of the MSB-first CRC with polynomial `0xd5`. -/
def crcShift (c : ℕ) : ℕ :=
  if c.testBit 7 then ((c <<< 1) ^^^ 0xd5) &&& 0xff else (c <<< 1) &&& 0xff

/-- Digest one byte into the CRC accumulator. -/
def crc8step (c b : ℕ) : ℕ := crcShift^[8] (c ^^^ b)

/-- CRC-8/DVB-S2 of a byte sequence, initial value `0`, no final XOR. -/
def crc8 (l : List ℕ) : ℕ := l.foldl crc8step 0

/-! ## The MSP frame codec (`MspMessage`)

The payload type parameter `P` of `MspMessage<P>` is modelled by a payload
schema (list of field widths); a payload value is its list of field values.
`P::SIZE` is `schema.sum`. -/

/-- The `MspDirection` (`<` request, `>` response, `!` error). -/
inductive MspDirection : Type
  | Request
  | Response
  | Error
deriving DecidableEq

/-- The `u8::from(&MspDirection)`. -/
def MspDirection.toByte : MspDirection → ℕ
  | .Request => 60  -- ascii for the less-than sign
  | .Response => 62 -- ascii for the greater-than sign
  | .Error => 33    -- ascii for the exclamation mark

/-- The `MspVersion` (`M` v1, `X` v2). -/
inductive MspVersion : Type
  | V1
  | V2
deriving DecidableEq

/-- The `u8::from(&MspVersion)`. -/
def MspVersion.toByte : MspVersion → ℕ
  | .V1 => 77 -- ascii M
  | .V2 => 88 -- ascii X

/-- The `io::ErrorKind`s this code produces or meets. -/
inductive IoErr : Type
  | invalidInput
  | invalidData
  | unexpectedEof
deriving DecidableEq

instance {ε α : Type} [DecidableEq ε] [DecidableEq α] :
    DecidableEq (Except ε α) := fun x y =>
  match x, y with
  | .ok a, .ok b =>
      if h : a = b then .isTrue (by rw [h])
      else .isFalse (fun hh => h (by injection hh))
  | .error a, .error b =>
      if h : a = b then .isTrue (by rw [h])
      else .isFalse (fun hh => h (by injection hh))
  | .ok _, .error _ => .isFalse (fun hh => Except.noConfusion hh)
  | .error _, .ok _ => .isFalse (fun hh => Except.noConfusion hh)

/-- The `TryFrom<u8> for MspDirection`. -/
def directionOfByte (b : ℕ) : Except IoErr MspDirection :=
  if b = 60 then .ok .Request
  else if b = 62 then .ok .Response
  else if b = 33 then .ok .Error
  else .error .invalidInput

/-- The `TryFrom<u8> for MspVersion`. -/
def versionOfByte (b : ℕ) : Except IoErr MspVersion :=
  if b = 77 then .ok .V1
  else if b = 88 then .ok .V2
  else .error .invalidInput

/-- The `MspMessage<P>`; the payload value is the field-value list of its schema. -/
structure MspMessage : Type where
  version : MspVersion
  direction : MspDirection
  flag : Option ℕ
  function : ℕ
  payload : Option (List ℕ)
deriving DecidableEq

namespace MspMessage

/-- The encoded length field: `P::SIZE` when a payload is present, else `0`
(the `try_into().expect("payload too big")` panic cannot fire for the
registered schemas, whose sizes are at most 32 bytes). -/
def lenOf (schema : List ℕ) (payload : Option (List ℕ)) : ℕ :=
  match payload with
  | some _ => schema.sum
  | none => 0

/-- The `MspMessage::ser`: serialize without the checksum.  The `V1` arm of the
source allocates the 8-byte header buffer and returns it without writing any
field into it. -/
def ser (schema : List ℕ) (m : MspMessage) : List ℕ :=
  match m.version with
  | .V1 => List.replicate 8 0
  | .V2 =>
      [36, MspVersion.toByte .V2, m.direction.toByte, m.flag.getD 0]
        ++ leBytes 2 m.function
        ++ leBytes 2 (lenOf schema m.payload)
        ++ (match m.payload with
            | some vals => encodePayload schema vals
            | none => [])

/-- The `MspMessage::checksum`: XOR from offset 2 for V1, CRC-8/DVB-S2 from
offset 3 for V2. -/
def checksum (schema : List ℕ) (m : MspMessage) : ℕ :=
  match m.version with
  | .V1 => ((ser schema m).drop 2).foldl (fun a b => a ^^^ b) 0
  | .V2 => crc8 ((ser schema m).drop 3)

/-- The `MspMessage::encode`: serialized bytes followed by the checksum byte. -/
def encode (schema : List ℕ) (m : MspMessage) : List ℕ :=
  ser schema m ++ [checksum schema m]

/-- The `get!(r, u8)`: read one byte; EOF is `read_exact`'s `UnexpectedEof`. -/
def readU8 : List ℕ → Except IoErr (ℕ × List ℕ)
  | [] => .error .unexpectedEof
  | b :: r => .ok (b, r)

/-- The `get!(r, u16)`: read two bytes, little-endian. -/
def readU16 : List ℕ → Except IoErr (ℕ × List ℕ)
  | a :: b :: r => .ok (a + 256 * b, r)
  | _ => .error .unexpectedEof

/-- The `State::Payload` / `State::Checksum` of `MspMessage::decode`: read the
payload if the length field was non-zero (via `P::decode`, which always
consumes `P::SIZE` bytes), then recompute the checksum of the decoded
message and compare it with the next byte. -/
def finish (schema : List ℕ) (v : MspVersion) (d : MspDirection) (fl : Option ℕ)
    (fn psz : ℕ) (r : List ℕ) : Except IoErr (MspMessage × List ℕ) := do
  let (payload, r) ←
    if psz > 0 then
      match decodePayload schema r with
      | some (vals, r2) => Except.ok (some vals, r2)
      | none => Except.error IoErr.unexpectedEof
    else Except.ok (none, r)
  let m : MspMessage := ⟨v, d, fl, fn, payload⟩
  let (cs, r) ← readU8 r
  if checksum schema m = cs then .ok (m, r) else .error .invalidInput

/-- The `State::Header` through `State::Jumbo` of `MspMessage::decode`: the bytes
after a `'$'`.  For V1 the source sets `flag = None`, reads the length byte,
then the function as a little-endian `u16`, and on length `255` two further
bytes of jumbo length; for V2 it reads flag, function (`u16`) and length
(`u16`). -/
def parseFrame (schema : List ℕ) (r : List ℕ) : Except IoErr (MspMessage × List ℕ) := do
  let (vb, r) ← readU8 r
  let version ← versionOfByte vb
  let (db, r) ← readU8 r
  let direction ← directionOfByte db
  match version with
  | .V1 => do
      let (psz, r) ← readU8 r
      let (fn, r) ← readU16 r
      let (psz, r) ← if psz = 255 then readU16 r else Except.ok (psz, r)
      finish schema .V1 direction none fn psz r
  | .V2 => do
      let (fl, r) ← readU8 r
      let (fn, r) ← readU16 r
      let (psz, r) ← readU16 r
      finish schema .V2 direction (some fl) fn psz r

/-- The `MspMessage::decode`: hunt for `'$'` (discarding other bytes), then parse
one frame.  Returns the decoded message and the unread rest of the stream. -/
def decode (schema : List ℕ) : List ℕ → Except IoErr (MspMessage × List ℕ)
  | [] => .error .unexpectedEof
  | b :: r => if b = 36 then parseFrame schema r else decode schema r

/-- The `MspMessage::fetch`: send a flagless V2 request (the write side of the
connection), decode the response from the connection's readable bytes, and
demand a payload; a payload-less response is `InvalidData`. -/
def fetch (schema : List ℕ) (input : List ℕ) : Except IoErr (List ℕ) :=
  match decode schema input with
  | .ok (m, _) =>
      match m.payload with
      | some p => .ok p
      | none => .error .invalidData
  | .error e => .error e

/-- The V1 header layout as claim C3 words it — after the direction byte come
`function: u8`, then `length: u8`, with a little-endian `u16` jumbo length
next when the length byte is `255`.  Written from the claim's words, only to
be compared against the decoder actually implemented in `MspMessage::decode`;
returns the function, the payload length and the unread rest. -/
def claimV1HeaderLayout (r : List ℕ) : Except IoErr (ℕ × ℕ × List ℕ) := do
  let (fn, r) ← readU8 r
  let (len, r) ← readU8 r
  let (plen, r) ← if len = 255 then readU16 r else Except.ok (len, r)
  .ok (fn, plen, r)

end MspMessage

/-! ## The slot scheduler (`src/scheduler.rs`)

A `Schedule<T>` is one major timeframe of `duration` (always `1 s`, set by
`Schedule::new` and never changed) divided into `size` slots; a slot may hold
one task.  The state is the slot list; `f64` arithmetic is modelled by exact
rationals, `f64::round` by half-away-from-zero rounding, an `as usize` cast
of a non-negative value by `Int.toNat`, and a panic (slot index out of
bounds, failed `assert!`) by `Option.none`. -/

namespace Schedule

/-- The `f64::round`: round half away from zero. -/
def rround (q : ℚ) : ℤ :=
  if 0 ≤ q then ⌊q + 1 / 2⌋ else -⌊-q + 1 / 2⌋

/-- The `self.duration.as_secs_f64()`; `Schedule::new` sets `Duration::new(1, 0)`. -/
def durationSecs : ℚ := 1

/-- The `usize::max_value()`, the initial minimum of the search loop. -/
def usizeMax : ℕ := 2 ^ 64 - 1

/-- The `Schedule::count`: the occurrences of a task in the slot list. -/
def count {T : Type} [DecidableEq T] (s : List (Option T)) (task : T) : ℕ :=
  (s.filter (fun slot => slot = some task)).length

/-- The `Schedule::delete`: clear every slot holding the task. -/
def delete {T : Type} [DecidableEq T] (s : List (Option T)) (task : T) :
    List (Option T) :=
  s.map (fun slot => if slot = some task then none else slot)

/-- The `new_schedule[index] = 1` — `none` is the out-of-bounds panic. -/
def setOne (l : List ℕ) (idx : ℕ) : Option (List ℕ) :=
  if idx < l.length then some (l.set idx 1) else none

/-- The candidate-pattern loop of `Schedule::insert`
(`for i in 0..frame_count { new_schedule[(i * interval).round() as usize] = 1 }`),
iterating `i = start, start+1, …` for `k` more steps. -/
def buildAux (interval : ℚ) : ℕ → ℕ → List ℕ → Option (List ℕ)
  | 0, _, acc => some acc
  | k + 1, i, acc =>
      match setOne acc (rround ((i : ℚ) * interval)).toNat with
      | some acc2 => buildAux interval k (i + 1) acc2
      | none => none

/-- The full candidate pattern over `frameCount` frames. -/
def buildCandidate (N : ℕ) (interval : ℚ) (frameCount : ℕ) : Option (List ℕ) :=
  buildAux interval frameCount 0 (List.replicate N 0)

/-- The overlap sum of the search loop at offset `i`:
`time_use.iter().zip(new_schedule.iter().cycle().skip(i)).map(|a| a.0 * a.1).sum()`.
Skipping `i` into the cycled pattern is rotation by `i`. -/
def overlapAt (tu cand : List ℕ) (i : ℕ) : ℕ :=
  ((tu.zip (cand.rotate i)).map (fun p => p.1 * p.2)).sum

/-- The offset-search loop of `Schedule::insert`, with `k` iterations left,
current index `i`, running minimum and its offset; breaks on a zero sum. -/
def searchAux (tu cand : List ℕ) : ℕ → ℕ → ℕ → ℕ → ℕ × ℕ
  | 0, _, min, tau => (min, tau)
  | k + 1, i, min, tau =>
      let s := overlapAt tu cand i
      let p := if s < min then (s, i) else (min, tau)
      if s = 0 then p else searchAux tu cand k (i + 1) p.1 p.2

/-- The whole search loop (`for i in 0..self.time.len()`). -/
def searchLoop (tu cand : List ℕ) : ℕ × ℕ :=
  searchAux tu cand tu.length 0 usizeMax 0

/-- The commit loop of `Schedule::insert`: walk the pattern rotated by `tau`
(`new_schedule.iter().cycle().skip(tau)…take(N)`) along the slots; where the
pattern holds `1`, `assert!` the slot is empty (`none` models the panic) and
store the task. -/
def commitZip {T : Type} (task : T) :
    List (Option T) → List ℕ → Option (List (Option T))
  | [], _ => some []
  | s, [] => some s
  | s0 :: s, p :: ps =>
      if p = 1 then
        match s0 with
        | none => (commitZip task s ps).map (fun r => some task :: r)
        | some _ => none
      else (commitZip task s ps).map (fun r => s0 :: r)

/-- The `Schedule::insert`.  Returns `none` for a panic; otherwise the `Result`
(`none` = `Ok(())`, `some msg` = `Err(msg)`) together with the slot list
after the call. -/
def insert {T : Type} [DecidableEq T] (s : List (Option T)) (frequency : ℕ)
    (task : T) : Option (Option String × List (Option T)) :=
  if frequency = 0 then some (none, delete s task)
  else
    let N := s.length
    let interval : ℚ := (N : ℚ) / (frequency : ℚ) / durationSecs
    let frameCount := (rround (durationSecs * (frequency : ℚ))).toNat
    match buildCandidate N interval frameCount with
    | none => none
    | some cand =>
        let tu := s.map (fun slot => if slot = none then 0 else 1)
        let mt := searchLoop tu cand
        if mt.1 = 0 then
          match commitZip task s (cand.rotate mt.2) with
          | some s2 => some (none, s2)
          | none => none
        else some (some "task does not fit current schedule", s)

/-- The cyclic gaps of an ascending occurrence list inside a frame of `N`
slots: successive differences, and the wrap-around gap from the last
occurrence to the first one of the next cycle. -/
def gapsAux (N first : ℕ) : ℕ → List ℕ → List ℕ
  | prev, [] => [N - prev + first]
  | prev, b :: l => (b - prev) :: gapsAux N first b l

/-- All gaps between cyclically consecutive occurrences. -/
def cycGaps (N : ℕ) : List ℕ → List ℕ
  | [] => []
  | a :: l => gapsAux N a a l

end Schedule

/-! ## The `MESSAGE_INTERVAL` arm of the event loop (`src/core.rs`)

`let freq = (1_000_000f64 / msg.interval_us as f64) as u32;
 schedule.insert(freq, msg.message_id.into());` — the `Result` is ignored. -/

/-- The `u32::MAX`. -/
def u32Max : ℕ := 2 ^ 32 - 1

/-- The `(1_000_000f64 / interval_us as f64) as u32`: the `as u32` cast of an
`f64` truncates toward zero and saturates; division by zero yields `+∞`,
which saturates to `u32::MAX`. -/
def freqOfInterval (interval_us : ℤ) : ℕ :=
  if interval_us = 0 then u32Max
  else
    let q : ℚ := 1000000 / (interval_us : ℚ)
    if q < 0 then 0 else min ⌊q⌋.toNat u32Max

/-- The frequency computation as claim C7 words it:
`freq_hz = round(1_000_000 / interval_us)`.  Written from the claim's words,
only to be compared against `freqOfInterval`, the computation the code
performs. -/
def claimFreqOfInterval (interval_us : ℤ) : ℕ :=
  (Schedule.rround (1000000 / (interval_us : ℚ))).toNat

/-- The `MESSAGE_INTERVAL { message_id, interval_us }` arm: compute the
frequency and call `schedule.insert(freq, message_id)`. -/
def messageIntervalStep (s : List (Option ℕ)) (message_id : ℕ)
    (interval_us : ℤ) : Option (Option String × List (Option ℕ)) :=
  Schedule.insert s (freqOfInterval interval_us) message_id

/-! ## Helper lemmas for the frame codec proofs -/

/-! ## Lemmas about scalars, payload codecs and the CRC -/

@[simp] theorem leBytes_length (w v : ℕ) : (leBytes w v).length = w := by
  simp [leBytes]

theorem leBytes_succ (w v : ℕ) :
    leBytes (w + 1) v = v % 256 :: leBytes w (v / 256) := by
  simp only [leBytes, List.range_succ_eq_map, List.map_cons, List.map_map]
  refine congrArg₂ _ (by simp) ?_
  refine List.map_congr_left (fun k _ => ?_)
  simp [Function.comp, pow_succ, Nat.div_div_eq_div_mul, Nat.mul_comm]

@[simp] theorem leVal_nil : leVal [] = 0 := rfl

@[simp] theorem leVal_cons (b : ℕ) (bs : List ℕ) :
    leVal (b :: bs) = b + 256 * leVal bs := rfl

theorem leVal_leBytes (w v : ℕ) (h : v < 256 ^ w) : leVal (leBytes w v) = v := by
  induction w generalizing v with
  | zero => simp at h; simp [leBytes, h]
  | succ w ih =>
      rw [leBytes_succ, leVal_cons, ih (v / 256) ?_]
      · exact Nat.mod_add_div v 256
      · exact Nat.div_lt_of_lt_mul (by rw [← pow_succ']; exact h)

theorem leBytes_lt (w v : ℕ) : ∀ b ∈ leBytes w v, b < 256 := by
  intro b hb
  simp only [leBytes, List.mem_map] at hb
  obtain ⟨k, -, rfl⟩ := hb
  exact Nat.mod_lt _ (by norm_num)

theorem leBytes_leVal (bs : List ℕ) (h : ∀ b ∈ bs, b < 256) :
    leBytes bs.length (leVal bs) = bs := by
  induction bs with
  | nil => simp [leBytes]
  | cons b bs ih =>
      have hb : b < 256 := h b (by simp)
      rw [List.length_cons, leBytes_succ, leVal_cons]
      have h1 : (b + 256 * leVal bs) % 256 = b := by
        rw [Nat.add_mul_mod_self_left, Nat.mod_eq_of_lt hb]
      have h2 : (b + 256 * leVal bs) / 256 = leVal bs := by
        rw [Nat.add_mul_div_left _ _ (by norm_num), Nat.div_eq_of_lt hb, Nat.zero_add]
      rw [h1, h2, ih (fun x hx => h x (by simp [hx]))]

theorem leVal_lt (bs : List ℕ) (h : ∀ b ∈ bs, b < 256) :
    leVal bs < 256 ^ bs.length := by
  induction bs with
  | nil => simp
  | cons b bs ih =>
      have hb : b < 256 := h b (by simp)
      have ht := ih (fun x hx => h x (by simp [hx]))
      simp only [leVal_cons, List.length_cons, pow_succ']
      calc b + 256 * leVal bs < 256 + 256 * leVal bs := by omega
        _ = 256 * (leVal bs + 1) := by ring
        _ ≤ 256 * 256 ^ bs.length := by
              exact Nat.mul_le_mul_left _ (Nat.succ_le_of_lt ht)

theorem encodePayload_length (schema vals : List ℕ) (h : ValsValid schema vals) :
    (encodePayload schema vals).length = schema.sum := by
  induction h with
  | nil => rfl
  | cons _ _ ih =>
      simp only [encodePayload, List.zipWith_cons_cons, List.flatten_cons,
        List.length_append, leBytes_length, List.sum_cons] at *
      omega

theorem encodePayload_lt (schema : List ℕ) :
    ∀ vals, ∀ b ∈ encodePayload schema vals, b < 256 := by
  induction schema with
  | nil => intro vals b hb; simp [encodePayload] at hb
  | cons w ws ih =>
      intro vals b hb
      cases vals with
      | nil => simp [encodePayload] at hb
      | cons v vs =>
          simp only [encodePayload, List.zipWith_cons_cons, List.flatten_cons,
            List.mem_append] at hb
          rcases hb with hb | hb
          · exact leBytes_lt w v b hb
          · exact ih vs b hb

theorem splitFields_encode (schema vals : List ℕ) (h : ValsValid schema vals)
    (rest : List ℕ) :
    splitFields schema (encodePayload schema vals ++ rest) = vals := by
  induction h generalizing rest with
  | nil => rfl
  | @cons w v ws vs hwv _ ih =>
      simp only [encodePayload, List.zipWith_cons_cons, List.flatten_cons,
        splitFields, List.append_assoc]
      rw [List.take_append_of_le_length (by simp), List.take_of_length_le (by simp),
        leVal_leBytes w v hwv,
        List.drop_append_of_le_length (by simp), List.drop_of_length_le (by simp)]
      exact congrArg _ (ih rest)

theorem decodePayload_encode (schema vals : List ℕ) (h : ValsValid schema vals)
    (rest : List ℕ) :
    decodePayload schema (encodePayload schema vals ++ rest) = some (vals, rest) := by
  have hlen := encodePayload_length schema vals h
  unfold decodePayload
  rw [if_pos (by simp [hlen])]
  rw [List.take_append_of_le_length (by omega), List.take_of_length_le (by omega),
    List.drop_append_of_le_length (by omega), List.drop_of_length_le (by omega)]
  have hsf := splitFields_encode schema vals h []
  rw [List.append_nil] at hsf
  simp [hsf]

theorem encode_splitFields (schema b : List ℕ) (hlen : b.length = schema.sum)
    (hb : ∀ x ∈ b, x < 256) :
    encodePayload schema (splitFields schema b) = b := by
  induction schema generalizing b with
  | nil =>
      simp only [List.sum_nil] at hlen
      have : b = [] := List.eq_nil_of_length_eq_zero hlen
      subst this; rfl
  | cons w ws ih =>
      simp only [List.sum_cons] at hlen
      have htk : (b.take w).length = w := by
        rw [List.length_take]; omega
      simp only [splitFields, encodePayload, List.zipWith_cons_cons, List.flatten_cons]
      have h1 : leBytes w (leVal (b.take w)) = b.take w := by
        have := leBytes_leVal (b.take w) (fun x hx => hb x (List.mem_of_mem_take hx))
        rw [htk] at this
        exact this
      rw [h1]
      have h2 : encodePayload ws (splitFields ws (b.drop w)) = b.drop w := by
        refine ih (b.drop w) ?_ (fun x hx => hb x (List.mem_of_mem_drop hx))
        rw [List.length_drop]; omega
      simp only [encodePayload] at h2
      rw [h2, List.take_append_drop]

theorem splitFields_valid (schema b : List ℕ) (hb : ∀ x ∈ b, x < 256)
    (hlen : schema.sum ≤ b.length) :
    ValsValid schema (splitFields schema b) := by
  induction schema generalizing b with
  | nil => exact List.Forall₂.nil
  | cons w ws ih =>
      simp only [List.sum_cons] at hlen
      refine List.Forall₂.cons ?_ ?_
      · have : (b.take w).length = w := by rw [List.length_take]; omega
        calc leVal (b.take w) < 256 ^ (b.take w).length :=
              leVal_lt _ (fun x hx => hb x (List.mem_of_mem_take hx))
          _ = 256 ^ w := by rw [this]
      · refine ih (b.drop w) (fun x hx => hb x (List.mem_of_mem_drop hx)) ?_
        rw [List.length_drop]; omega

theorem crcShift_lt (c : ℕ) : crcShift c < 256 := by
  unfold crcShift
  split <;> exact Nat.lt_succ_of_le (Nat.and_le_right)

theorem crc8step_lt (c b : ℕ) : crc8step c b < 256 := by
  unfold crc8step
  have h : crcShift^[8] (c ^^^ b) = crcShift (crcShift^[7] (c ^^^ b)) :=
    Function.iterate_succ_apply' crcShift 7 (c ^^^ b)
  rw [h]
  exact crcShift_lt _

theorem foldl_crc8step_lt (l : List ℕ) : ∀ acc, acc < 256 →
    l.foldl crc8step acc < 256 := by
  induction l with
  | nil => intro acc h; exact h
  | cons b l ih => intro acc _; exact ih (crc8step acc b) (crc8step_lt acc b)

theorem crc8_lt (l : List ℕ) : l ≠ [] → crc8 l < 256 := by
  cases l with
  | nil => intro h; exact absurd rfl h
  | cons b l =>
      intro _
      exact foldl_crc8step_lt l (crc8step 0 b) (crc8step_lt 0 b)

namespace MspMessage

theorem directionOfByte_toByte (d : MspDirection) :
    directionOfByte d.toByte = .ok d := by
  cases d <;> rfl

theorem leBytes_two (v : ℕ) : leBytes 2 v = [v % 256, v / 256 % 256] := by
  simp [leBytes, List.range_succ]

theorem readU16_leBytes (v : ℕ) (hv : v < 65536) (r : List ℕ) :
    readU16 (leBytes 2 v ++ r) = .ok (v, r) := by
  rw [leBytes_two]
  show Except.ok (v % 256 + 256 * (v / 256 % 256), r) = .ok (v, r)
  have : v % 256 + 256 * (v / 256 % 256) = v := by omega
  rw [this]

theorem decode_cons_dollar (schema : List ℕ) (r : List ℕ) :
    decode schema (36 :: r) = parseFrame schema r := by
  simp [decode]

theorem decode_cons_skip (schema : List ℕ) (b : ℕ) (hb : b ≠ 36) (r : List ℕ) :
    decode schema (b :: r) = decode schema r := by
  simp [decode, hb]

end MspMessage

/-! ## Claim theorems -/

open MspMessage

/-- Claim C2: for every registered payload schema, decoding inverts encoding on
valid values and encoding inverts decoding on byte strings of exactly `SIZE`
bytes; decoding consumes exactly `SIZE` bytes and encoding produces exactly
`SIZE` bytes, each field little-endian in declaration order, no padding. -/
theorem c2_payload_roundtrip (schema : List ℕ)
    (hreg : schema ∈ registeredSchemas) :
    (∀ vals rest, ValsValid schema vals →
      decodePayload schema (encodePayload schema vals ++ rest) =
        some (vals, rest) ∧
      (encodePayload schema vals).length = schema.sum) ∧
    (∀ b, b.length = schema.sum → (∀ x ∈ b, x < 256) →
      decodePayload schema b = some (splitFields schema b, []) ∧
      encodePayload schema (splitFields schema b) = b) := by
  clear hreg
  constructor
  · intro vals rest h
    exact ⟨decodePayload_encode schema vals h rest, encodePayload_length schema vals h⟩
  · intro b hlen hb
    constructor
    · unfold decodePayload
      rw [if_pos (by omega), List.take_of_length_le (by omega),
        List.drop_of_length_le (by omega)]
    · exact encode_splitFields schema b hlen hb

/-- Witness for C2 at the `MspIdent` schema `[1,1,1,4]`. -/
theorem c2_payload_roundtrip_witness :
    decodePayload [1, 1, 1, 4] (encodePayload [1, 1, 1, 4] [1, 2, 3, 70000] ++ [9]) =
      some ([1, 2, 3, 70000], [9]) :=
  ((c2_payload_roundtrip [1, 1, 1, 4] (by decide)).1 [1, 2, 3, 70000] [9]
    (by decide)).1

set_option maxRecDepth 100000 in
/-- Claim C4: encoding `{V2, Request, flag 0, function 100, empty payload}`
produces exactly `24 58 3c 00 64 00 00 00 8f` (final byte the CRC-8/DVB-S2
over flag..length), and decoding those nine bytes yields the same frame. -/
theorem c4_empty_request_bytes :
    encode [1, 1, 1, 4] ⟨.V2, .Request, some 0, 100, none⟩ =
      [0x24, 0x58, 0x3c, 0x00, 0x64, 0x00, 0x00, 0x00, 0x8f] ∧
    decode [1, 1, 1, 4] [0x24, 0x58, 0x3c, 0x00, 0x64, 0x00, 0x00, 0x00, 0x8f] =
      .ok (⟨.V2, .Request, some 0, 100, none⟩, []) := by
  constructor
  · decide
  · decide

set_option maxRecDepth 100000 in
/-- Claim C1, counterexample: the round-trip `decode (encode f) = f` fails as
stated.  A V1 frame serializes to an all-zero buffer (the `V1` arm of
`MspMessage::ser` never writes `'$'` or any field), so decoding its encoding
hits end-of-stream while hunting for `'$'`; and a V2 frame with `flag = None`
encodes the flag byte as `0` and decodes back with `flag = Some 0 ≠ None`. -/
theorem c1_frame_roundtrip_cex :
    decode [] (encode [] ⟨.V1, .Request, none, 0, none⟩) =
      .error .unexpectedEof ∧
    decode [] (encode [] ⟨.V2, .Request, none, 100, none⟩) =
      .ok (⟨.V2, .Request, some 0, 100, none⟩, []) ∧
    (⟨.V2, .Request, some 0, 100, none⟩ : MspMessage) ≠
      ⟨.V2, .Request, none, 100, none⟩ := by
  refine ⟨by decide, by decide, by decide⟩

theorem parseFrame_v2 (schema : List ℕ) (dir : MspDirection) (fl fn psz : ℕ)
    (hfn : fn < 65536) (hpsz : psz < 65536) (r : List ℕ) :
    parseFrame schema (88 :: dir.toByte :: fl ::
      (leBytes 2 fn ++ (leBytes 2 psz ++ r))) =
    finish schema .V2 dir (some fl) fn psz r := by
  have h1 : fn % 256 + 256 * (fn / 256 % 256) = fn := by omega
  have h2 : psz % 256 + 256 * (psz / 256 % 256) = psz := by omega
  rw [leBytes_two fn, leBytes_two psz]
  cases dir
  · show finish schema .V2 .Request (some fl) (fn % 256 + 256 * (fn / 256 % 256))
      (psz % 256 + 256 * (psz / 256 % 256)) r = _
    rw [h1, h2]
  · show finish schema .V2 .Response (some fl) (fn % 256 + 256 * (fn / 256 % 256))
      (psz % 256 + 256 * (psz / 256 % 256)) r = _
    rw [h1, h2]
  · show finish schema .V2 .Error (some fl) (fn % 256 + 256 * (fn / 256 % 256))
      (psz % 256 + 256 * (psz / 256 % 256)) r = _
    rw [h1, h2]

theorem finish_zero (schema : List ℕ) (v : MspVersion) (d : MspDirection)
    (fl : Option ℕ) (fn cs : ℕ) (r : List ℕ) :
    finish schema v d fl fn 0 (cs :: r) =
      if checksum schema ⟨v, d, fl, fn, none⟩ = cs
      then .ok (⟨v, d, fl, fn, none⟩, r)
      else .error .invalidInput := rfl

theorem finish_payload (schema : List ℕ) (v : MspVersion) (d : MspDirection)
    (fl : Option ℕ) (fn psz : ℕ) (vals : List ℕ) (cs : ℕ) (r r2 : List ℕ)
    (hpsz : 0 < psz) (hdec : decodePayload schema r = some (vals, cs :: r2)) :
    finish schema v d fl fn psz r =
      if checksum schema ⟨v, d, fl, fn, some vals⟩ = cs
      then .ok (⟨v, d, fl, fn, some vals⟩, r2)
      else .error .invalidInput := by
  unfold finish
  rw [if_pos hpsz, hdec]
  rfl

/-- Claim C1, amended: for every well-formed frame whose version is `V2` and
whose flag is present, with any direction, any `u16` function id, and payload
absent or a valid value of a payload schema of positive size below `2^16`,
decoding the encoding yields the frame back exactly, with nothing left of
the stream. -/
theorem c1_frame_roundtrip (schema : List ℕ) (m : MspMessage) (fl : ℕ)
    (hv : m.version = .V2) (hfl : m.flag = some fl)
    (hfn : m.function < 65536)
    (hp : m.payload = none ∨
      ∃ vals, m.payload = some vals ∧ ValsValid schema vals ∧
        0 < schema.sum ∧ schema.sum < 65536) :
    decode schema (encode schema m) = .ok (m, []) := by
  obtain ⟨ver, dir, flag, fn, payload⟩ := m
  simp only at hv hfl hfn hp
  subst hv hfl
  rcases hp with hnone | ⟨vals, hsome, hvalid, hpos, hsz⟩
  · subst hnone
    have hser : ser schema ⟨.V2, dir, some fl, fn, none⟩ =
        36 :: 88 :: dir.toByte :: fl :: (leBytes 2 fn ++ (leBytes 2 0 ++ [])) := by
      simp [ser, MspVersion.toByte, lenOf]
    set cs := checksum schema ⟨.V2, dir, some fl, fn, none⟩ with hcs
    rw [encode, hser, ← hcs]
    simp only [List.cons_append, List.append_nil, List.append_assoc, List.nil_append]
    rw [decode_cons_dollar,
      parseFrame_v2 schema dir fl fn 0 hfn (by norm_num) [cs],
      finish_zero, if_pos rfl]
  · subst hsome
    have hser : ser schema ⟨.V2, dir, some fl, fn, some vals⟩ =
        36 :: 88 :: dir.toByte :: fl ::
          (leBytes 2 fn ++ (leBytes 2 schema.sum ++ encodePayload schema vals)) := by
      simp [ser, MspVersion.toByte, lenOf]
    set cs := checksum schema ⟨.V2, dir, some fl, fn, some vals⟩ with hcs
    rw [encode, hser, ← hcs]
    simp only [List.cons_append, List.append_assoc]
    rw [decode_cons_dollar,
      parseFrame_v2 schema dir fl fn schema.sum hfn hsz
        (encodePayload schema vals ++ [cs]),
      finish_payload schema .V2 dir (some fl) fn schema.sum vals cs _ []
        hpos (decodePayload_encode schema vals hvalid [cs]),
      if_pos rfl]

theorem parseFrame_v1 (schema : List ℕ) (dir : MspDirection) (len lo hi : ℕ)
    (r : List ℕ) (hlen : len ≠ 255) :
    parseFrame schema (77 :: dir.toByte :: len :: lo :: hi :: r) =
      finish schema .V1 dir none (lo + 256 * hi) len r := by
  cases dir <;>
    simp [parseFrame, readU8, readU16, versionOfByte, directionOfByte,
      MspDirection.toByte, Except.bind, bind, hlen]

theorem parseFrame_v1_jumbo (schema : List ℕ) (dir : MspDirection)
    (lo hi j1 j2 : ℕ) (r : List ℕ) :
    parseFrame schema (77 :: dir.toByte :: 255 :: lo :: hi :: j1 :: j2 :: r) =
      finish schema .V1 dir none (lo + 256 * hi) (j1 + 256 * j2) r := by
  cases dir <;>
    simp [parseFrame, readU8, readU16, versionOfByte, directionOfByte,
      MspDirection.toByte, Except.bind, bind]

set_option maxRecDepth 100000 in
/-- Claim C3, counterexample: the claim's V1 header layout (function byte
first, then length byte) contradicts the decoder.  On the V1 frame bytes
`24 4d 3c 02 64 00 aa bb 00` the decoder yields function `100` (little-endian
`u16` from the 5th and 6th bytes) with a 2-byte payload, while the layout the
claim describes would make the function `2` (the 4th byte). -/
theorem c3_v1_layout_cex :
    decode [2] [0x24, 0x4d, 0x3c, 0x02, 0x64, 0x00, 0xaa, 0xbb, 0x00] =
      .ok (⟨.V1, .Request, none, 100, some [0xbbaa]⟩, []) ∧
    claimV1HeaderLayout [0x02, 0x64, 0x00, 0xaa, 0xbb, 0x00] =
      .ok (2, 100, [0x00, 0xaa, 0xbb, 0x00]) ∧
    (100 : ℕ) ≠ 2 := by
  refine ⟨by decide, by decide, by decide⟩

/-- Claim C3, amended: when decoding an MSPv1 frame the byte following the
direction byte is the payload length (`u8`); the next two bytes are the
function as a little-endian `u16`; if the length byte equals `255` the two
bytes following the function are a little-endian `u16` extended (jumbo)
payload length, otherwise the length byte itself gives the payload length;
no flag byte is present in V1 (the decoder sets `flag = None`). -/
theorem c3_v1_header_layout (schema : List ℕ) (dir : MspDirection)
    (len lo hi j1 j2 : ℕ) (r r2 : List ℕ) (hlen : len ≠ 255) :
    decode schema (36 :: 77 :: dir.toByte :: len :: lo :: hi :: r) =
      finish schema .V1 dir none (lo + 256 * hi) len r ∧
    decode schema (36 :: 77 :: dir.toByte :: 255 :: lo :: hi :: j1 :: j2 :: r2) =
      finish schema .V1 dir none (lo + 256 * hi) (j1 + 256 * j2) r2 := by
  constructor
  · rw [decode_cons_dollar]
    exact parseFrame_v1 schema dir len lo hi r hlen
  · rw [decode_cons_dollar]
    exact parseFrame_v1_jumbo schema dir lo hi j1 j2 r2

/-- Witness for C3 (amended) at the concrete V1 frame of the counterexample. -/
theorem c3_v1_header_layout_witness :
    decode [2] [36, 77, 60, 2, 100, 0, 170, 187, 0] =
      finish [2] .V1 .Request none 100 2 [170, 187, 0] :=
  (c3_v1_header_layout [2] .Request 2 100 0 0 0 [170, 187, 0] []
    (by decide)).1

set_option maxRecDepth 100000 in
/-- Witness for C1 (amended) at a concrete V2 response with payload. -/
theorem c1_frame_roundtrip_witness :
    decode [2] (encode [2] ⟨.V2, .Response, some 165, 300, some [47786]⟩) =
      .ok (⟨.V2, .Response, some 165, 300, some [47786]⟩, []) :=
  c1_frame_roundtrip [2] ⟨.V2, .Response, some 165, 300, some [47786]⟩ 165
    rfl rfl (by decide)
    (Or.inr ⟨[47786], rfl, by decide, by decide, by decide⟩)

/-- Claim C5: the decoder discards every byte before a `'$'`; since `'$'` alone
is already a `'$'`-led prefix of a valid frame, a garbage prefix containing
no `'$'`-led valid frame prefix is exactly one containing no `'$'` byte, and
prepending it leaves the decoded frame (and the consumed input) unchanged:
the parser yields exactly the one frame `decode F` yields. -/
theorem c5_resync (schema : List ℕ) (garbage F : List ℕ) (m : MspMessage)
    (rest : List ℕ) (hg : ∀ b ∈ garbage, b ≠ 36)
    (hF : decode schema F = .ok (m, rest)) :
    decode schema (garbage ++ F) = .ok (m, rest) := by
  induction garbage with
  | nil => simpa using hF
  | cons b g ih =>
      rw [List.cons_append, decode_cons_skip schema b (hg b (by simp)) _]
      exact ih (fun x hx => hg x (by simp [hx]))

set_option maxRecDepth 100000 in
/-- Witness for C5: three garbage bytes before the MSPv2 empty request. -/
theorem c5_resync_witness :
    decode [1, 1, 1, 4] ([1, 2, 3] ++ [36, 88, 60, 0, 100, 0, 0, 0, 143]) =
      .ok (⟨.V2, .Request, some 0, 100, none⟩, []) :=
  c5_resync [1, 1, 1, 4] [1, 2, 3] [36, 88, 60, 0, 100, 0, 0, 0, 143]
    ⟨.V2, .Request, some 0, 100, none⟩ [] (by decide) (by decide)

/-- Claim C10: `MspMessage::fetch` returns `Ok(payload)` exactly when the
exchange succeeds and the decoded response frame carries a payload; when the
response decodes successfully but carries no payload, `fetch` returns an
`InvalidData` error rather than any default value, and any decode error is
passed through. -/
theorem c10_fetch_payload (schema input : List ℕ) :
    (∀ p, fetch schema input = .ok p ↔
      ∃ m rest, decode schema input = .ok (m, rest) ∧ m.payload = some p) ∧
    (∀ m rest, decode schema input = .ok (m, rest) → m.payload = none →
      fetch schema input = .error .invalidData) ∧
    (∀ e, decode schema input = .error e → fetch schema input = .error e) := by
  refine ⟨?_, ?_, ?_⟩
  · intro p
    constructor
    · intro hfetch
      cases hdec : decode schema input with
      | ok pr =>
          obtain ⟨m, rest⟩ := pr
          cases hpay : m.payload with
          | some q =>
              refine ⟨m, rest, rfl, ?_⟩
              simp only [fetch, hdec, hpay] at hfetch
              injection hfetch with hq
              rw [hpay, hq]
          | none =>
              simp only [fetch, hdec, hpay] at hfetch
              exact absurd hfetch (by simp)
      | error e =>
          simp only [fetch, hdec] at hfetch
          exact absurd hfetch (by simp)
    · rintro ⟨m, rest, hdec, hpay⟩
      simp only [fetch, hdec, hpay]
  · intro m rest hdec hpay
    simp only [fetch, hdec, hpay]
  · intro e hdec
    simp only [fetch, hdec]

set_option maxRecDepth 100000 in
/-- Witness for C10: the payload-less MSPv2 empty-request frame makes `fetch`
return `InvalidData`. -/
theorem c10_fetch_payload_witness :
    fetch [1, 1, 1, 4] [36, 88, 60, 0, 100, 0, 0, 0, 143] =
      .error .invalidData :=
  (c10_fetch_payload [1, 1, 1, 4] [36, 88, 60, 0, 100, 0, 0, 0, 143]).2.1
    ⟨.V2, .Request, some 0, 100, none⟩ [] (by decide) rfl

/-! ## Scheduler lemmas -/

namespace Schedule

theorem rround_of_nonneg (q : ℚ) (h : 0 ≤ q) : rround q = ⌊q + 1 / 2⌋ :=
  if_pos h

theorem rround_natCast (n : ℕ) : rround (n : ℚ) = n := by
  rw [rround_of_nonneg _ (by positivity)]
  rw [show ((n : ℚ) + 1 / 2) = ((n : ℤ) : ℚ) + 1 / 2 by push_cast; ring]
  rw [Int.floor_int_add]
  norm_num

theorem rround_nonneg (q : ℚ) (h : 0 ≤ q) : 0 ≤ rround q := by
  rw [rround_of_nonneg q h]
  exact Int.floor_nonneg.mpr (by linarith)

theorem getD_set_self (l : List ℕ) (i : ℕ) (v : ℕ) (h : i < l.length) :
    (l.set i v).getD i 0 = v := by
  induction l generalizing i with
  | nil => simp at h
  | cons a l ih =>
      cases i with
      | zero => rfl
      | succ i => exact ih i (by simpa using h)

theorem getD_set_ne (l : List ℕ) (i j v : ℕ) (h : i ≠ j) :
    (l.set i v).getD j 0 = l.getD j 0 := by
  induction l generalizing i j with
  | nil => simp
  | cons a l ih =>
      cases i with
      | zero =>
          cases j with
          | zero => exact absurd rfl h
          | succ j => rfl
      | succ i =>
          cases j with
          | zero => rfl
          | succ j => exact ih i j (fun hh => h (by rw [hh]))

theorem getD_replicate_zero (N j : ℕ) :
    (List.replicate N (0 : ℕ)).getD j 0 = 0 := by
  induction N generalizing j with
  | zero => simp
  | succ N ih =>
      cases j with
      | zero => rfl
      | succ j => exact ih j

/-- The candidate-pattern loop: if every frame index it writes is in bounds,
it succeeds, preserves the length, writes `1` exactly at the written indices
and leaves every other entry unchanged. -/
theorem buildAux_spec (d : ℚ) (N : ℕ) :
    ∀ (k start : ℕ) (acc : List ℕ), acc.length = N →
    (∀ i, start ≤ i → i < start + k → (rround ((i : ℚ) * d)).toNat < N) →
    ∃ res, buildAux d k start acc = some res ∧ res.length = N ∧
      (∀ j, (∃ i, start ≤ i ∧ i < start + k ∧ (rround ((i : ℚ) * d)).toNat = j) →
        res.getD j 0 = 1) ∧
      (∀ j, (¬ ∃ i, start ≤ i ∧ i < start + k ∧ (rround ((i : ℚ) * d)).toNat = j) →
        res.getD j 0 = acc.getD j 0) := by
  intro k
  induction k with
  | zero =>
      intro start acc hlen _
      exact ⟨acc, rfl, hlen, fun j ⟨i, h1, h2, _⟩ => by omega,
        fun j _ => rfl⟩
  | succ k ih =>
      intro start acc hlen hidx
      have hstart : (rround ((start : ℚ) * d)).toNat < N :=
        hidx start le_rfl (by omega)
      set a0 := (rround ((start : ℚ) * d)).toNat with ha0
      have hset : setOne acc a0 = some (acc.set a0 1) := by
        unfold setOne
        rw [if_pos (by omega)]
      obtain ⟨res, hres, hrlen, hset1, hkeep⟩ :=
        ih (start + 1) (acc.set a0 1) (by simpa using hlen)
          (fun i h1 h2 => hidx i (by omega) (by omega))
      refine ⟨res, ?_, hrlen, ?_, ?_⟩
      · unfold buildAux
        rw [← ha0, hset]
        exact hres
      · rintro j ⟨i, h1, h2, h3⟩
        rcases eq_or_lt_of_le h1 with rfl | hgt
        · by_cases hj : ∃ i2, start + 1 ≤ i2 ∧ i2 < start + 1 + k ∧
              (rround ((i2 : ℚ) * d)).toNat = j
          · exact hset1 j hj
          · rw [hkeep j hj, ← h3, ← ha0]
            exact getD_set_self acc a0 1 (by omega)
        · exact hset1 j ⟨i, by omega, by omega, h3⟩
      · intro j hj
        have hj2 : ¬ ∃ i, start + 1 ≤ i ∧ i < start + 1 + k ∧
            (rround ((i : ℚ) * d)).toNat = j := by
          rintro ⟨i, h1, h2, h3⟩
          exact hj ⟨i, by omega, by omega, h3⟩
        rw [hkeep j hj2]
        have hne : a0 ≠ j := fun hh =>
          hj ⟨start, le_rfl, by omega, by rw [← ha0]; exact hh⟩
        exact getD_set_ne acc a0 j 1 hne

/-- The `buildCandidate` under in-bounds indices: succeeds with a length-`N`
0/1 pattern holding `1` exactly at the rounded frame indices. -/
theorem buildCandidate_spec (N : ℕ) (d : ℚ) (f : ℕ)
    (hidx : ∀ i, i < f → (rround ((i : ℚ) * d)).toNat < N) :
    ∃ cand, buildCandidate N d f = some cand ∧ cand.length = N ∧
      (∀ j, (∃ i, i < f ∧ (rround ((i : ℚ) * d)).toNat = j) →
        cand.getD j 0 = 1) ∧
      (∀ j, (¬ ∃ i, i < f ∧ (rround ((i : ℚ) * d)).toNat = j) →
        cand.getD j 0 = 0) := by
  obtain ⟨res, hres, hlen, h1, h0⟩ :=
    buildAux_spec d N f 0 (List.replicate N 0) (by simp)
      (fun i _ h2 => hidx i (by omega))
  refine ⟨res, hres, hlen, ?_, ?_⟩
  · rintro j ⟨i, hi, hj⟩
    exact h1 j ⟨i, by omega, by omega, hj⟩
  · intro j hj
    rw [h0 j ?_, getD_replicate_zero]
    rintro ⟨i, h1i, h2i, h3i⟩
    exact hj ⟨i, by omega, h3i⟩

/-- The search loop only ever reports a minimum that is the overlap sum at
the reported offset (or the untouched initial `usize::MAX`). -/
theorem searchAux_spec (tu cand : List ℕ) :
    ∀ (k i min tau : ℕ),
    (min = usizeMax ∨ overlapAt tu cand tau = min) →
    (searchAux tu cand k i min tau).1 = usizeMax ∨
      overlapAt tu cand (searchAux tu cand k i min tau).2 =
        (searchAux tu cand k i min tau).1 := by
  intro k
  induction k with
  | zero => intro i min tau h; exact h
  | succ k ih =>
      intro i min tau h
      have hunf : searchAux tu cand (k + 1) i min tau =
          (if overlapAt tu cand i = 0 then
            (if overlapAt tu cand i < min then (overlapAt tu cand i, i)
              else (min, tau))
          else searchAux tu cand k (i + 1)
            (if overlapAt tu cand i < min then (overlapAt tu cand i, i)
              else (min, tau)).1
            (if overlapAt tu cand i < min then (overlapAt tu cand i, i)
              else (min, tau)).2) := rfl
      rw [hunf]
      have hp : (if overlapAt tu cand i < min then (overlapAt tu cand i, i)
          else (min, tau)).1 = usizeMax ∨
          overlapAt tu cand
            (if overlapAt tu cand i < min then (overlapAt tu cand i, i)
              else (min, tau)).2 =
            (if overlapAt tu cand i < min then (overlapAt tu cand i, i)
              else (min, tau)).1 := by
        split
        · exact Or.inr rfl
        · exact h
      split
      · exact hp
      · exact ih (i + 1) _ _ hp

theorem overlapAt_eq_zero_of_tu_zero (tu cand : List ℕ) (i : ℕ)
    (h : ∀ x ∈ tu, x = 0) : overlapAt tu cand i = 0 := by
  unfold overlapAt
  refine List.sum_eq_zero ?_
  intro y hy
  simp only [List.mem_map] at hy
  obtain ⟨⟨a, b⟩, hab, rfl⟩ := hy
  have := h a (List.of_mem_zip hab).1
  simp [this]

/-- On an entirely empty schedule the search loop breaks immediately with
minimum `0` at offset `0`. -/
theorem searchLoop_empty (tu cand : List ℕ) (h : ∀ x ∈ tu, x = 0)
    (hN : tu.length ≠ 0) : searchLoop tu cand = (0, 0) := by
  unfold searchLoop
  obtain ⟨k, hk⟩ : ∃ k, tu.length = k + 1 := ⟨tu.length - 1, by omega⟩
  rw [hk]
  have h0 : overlapAt tu cand 0 = 0 := overlapAt_eq_zero_of_tu_zero tu cand 0 h
  show (if overlapAt tu cand 0 = 0 then
      (if overlapAt tu cand 0 < usizeMax then (overlapAt tu cand 0, 0)
        else (usizeMax, 0))
    else _) = (0, 0)
  rw [h0, if_pos rfl, if_pos (by norm_num [usizeMax])]

theorem zipMulSum_zero :
    ∀ (tu p : List ℕ),
    ((tu.zip p).map (fun q => q.1 * q.2)).sum = 0 →
    ∀ j, j < tu.length → p.getD j 0 = 1 → tu.getD j 0 = 0 := by
  intro tu
  induction tu with
  | nil => intro p _ j hj; simp at hj
  | cons t0 tu ih =>
      intro p hsum j hj hp
      cases p with
      | nil => simp at hp
      | cons p0 ps =>
          simp only [List.zip_cons_cons, List.map_cons, List.sum_cons] at hsum
          cases j with
          | zero =>
              show t0 = 0
              have hp0 : p0 = 1 := hp
              rw [hp0] at hsum
              omega
          | succ j =>
              exact ih ps (by omega) j (by simpa using hj) hp

/-- If the overlap at an offset is zero, every slot the rotated pattern marks
is empty. -/
theorem overlapAt_zero_pointwise (tu cand : List ℕ) (tau j : ℕ)
    (hov : overlapAt tu cand tau = 0) (hj : j < tu.length)
    (hpat : (cand.rotate tau).getD j 0 = 1) : tu.getD j 0 = 0 :=
  zipMulSum_zero tu (cand.rotate tau) hov j hj hpat

theorem commitZip_length {T : Type} (task : T) :
    ∀ (s : List (Option T)) (p : List ℕ) (s2 : List (Option T)),
    commitZip task s p = some s2 → s2.length = s.length := by
  intro s
  induction s with
  | nil => intro p s2 h; cases p <;> simp [commitZip] at h <;> simp [← h]
  | cons s0 s ih =>
      intro p s2 h
      cases p with
      | nil => simp [commitZip] at h; simp [← h]
      | cons p0 ps =>
          unfold commitZip at h
          by_cases hp0 : p0 = 1
          · rw [if_pos hp0] at h
            cases s0 with
            | none =>
                obtain ⟨r, hr, rfl⟩ := Option.map_eq_some'.mp h
                simpa using ih ps r hr
            | some t0 => exact absurd h (by simp)
          · rw [if_neg hp0] at h
            obtain ⟨r, hr, rfl⟩ := Option.map_eq_some'.mp h
            simpa using ih ps r hr

/-- A successful commit writes the task exactly where the pattern holds `1`
(into previously empty slots) and leaves every other slot unchanged. -/
theorem commitZip_spec {T : Type} (task : T) :
    ∀ (s : List (Option T)) (p : List ℕ) (s2 : List (Option T)),
    commitZip task s p = some s2 →
    (∀ j, j < s.length → p.getD j 0 = 1 →
      s.getD j none = none ∧ s2.getD j none = some task) ∧
    (∀ j, p.getD j 0 ≠ 1 → s2.getD j none = s.getD j none) := by
  intro s
  induction s with
  | nil =>
      intro p s2 h
      have hs2 : s2 = [] := by
        cases p with
        | nil => exact (Option.some.inj h).symm
        | cons p0 ps => exact (Option.some.inj h).symm
      subst hs2
      exact ⟨fun j hj _ => absurd hj (by simp), fun j _ => rfl⟩
  | cons s0 s ih =>
      intro p s2 h
      cases p with
      | nil =>
          simp only [commitZip] at h
          injection h with h
          subst h
          refine ⟨fun j _ hj => ?_, fun j _ => rfl⟩
          rw [List.getD_eq_default] at hj
          · omega
          · simp
      | cons p0 ps =>
          unfold commitZip at h
          by_cases hp0 : p0 = 1
          · rw [if_pos hp0] at h
            cases s0 with
            | none =>
                obtain ⟨r, hr, rfl⟩ := Option.map_eq_some'.mp h
                obtain ⟨ih1, ih2⟩ := ih ps r hr
                constructor
                · intro j hj hpj
                  cases j with
                  | zero => exact ⟨rfl, rfl⟩
                  | succ j => exact ih1 j (by simpa using hj) hpj
                · intro j hpj
                  cases j with
                  | zero => exact absurd hp0 hpj
                  | succ j => exact ih2 j hpj
            | some t0 => exact absurd h (by simp)
          · rw [if_neg hp0] at h
            obtain ⟨r, hr, rfl⟩ := Option.map_eq_some'.mp h
            obtain ⟨ih1, ih2⟩ := ih ps r hr
            constructor
            · intro j hj hpj
              cases j with
              | zero => exact absurd hpj hp0
              | succ j => exact ih1 j (by simpa using hj) hpj
            · intro j hpj
              cases j with
              | zero => rfl
              | succ j => exact ih2 j hpj

/-- The commit loop succeeds whenever every slot the pattern marks is empty
(the `assert!` cannot fire). -/
theorem commitZip_total {T : Type} (task : T) :
    ∀ (s : List (Option T)) (p : List ℕ),
    (∀ j, j < s.length → p.getD j 0 = 1 → s.getD j none = none) →
    ∃ s2, commitZip task s p = some s2 := by
  intro s
  induction s with
  | nil => intro p _; cases p <;> exact ⟨[], rfl⟩
  | cons s0 s ih =>
      intro p hempty
      cases p with
      | nil => exact ⟨s0 :: s, rfl⟩
      | cons p0 ps =>
          by_cases hp0 : p0 = 1
          · have hs0 : s0 = none := hempty 0 (by simp) (by simpa using hp0)
            subst hs0
            obtain ⟨r, hr⟩ := ih ps
              (fun j hj hpj => hempty (j + 1) (by simpa using hj) hpj)
            exact ⟨some task :: r, by unfold commitZip; rw [if_pos hp0, hr]; rfl⟩
          · obtain ⟨r, hr⟩ := ih ps
              (fun j hj hpj => hempty (j + 1) (by simpa using hj) hpj)
            exact ⟨s0 :: r, by unfold commitZip; rw [if_neg hp0, hr]; rfl⟩

theorem count_cons {T : Type} [DecidableEq T] (task : T) (s0 : Option T)
    (s : List (Option T)) :
    count (s0 :: s) task = count s task + if s0 = some task then 1 else 0 := by
  unfold count
  rw [List.filter_cons]
  split
  · simp only [List.length_cons]
    split
    · omega
    · simp_all
  · split
    · simp_all
    · omega

/-- A successful commit increases the task count by the number of `1`s in
the pattern. -/
theorem commitZip_count {T : Type} [DecidableEq T] (task : T) :
    ∀ (s : List (Option T)) (p : List ℕ) (s2 : List (Option T)),
    p.length = s.length → commitZip task s p = some s2 →
    count s2 task = count s task + p.count 1 := by
  intro s
  induction s with
  | nil =>
      intro p s2 hlen h
      have hp : p = [] := List.eq_nil_of_length_eq_zero (by simpa using hlen)
      subst hp
      simp only [commitZip] at h
      injection h with h
      subst h
      rfl
  | cons s0 s ih =>
      intro p s2 hlen h
      cases p with
      | nil => simp at hlen
      | cons p0 ps =>
          unfold commitZip at h
          by_cases hp0 : p0 = 1
          · rw [if_pos hp0] at h
            cases s0 with
            | none =>
                obtain ⟨r, hr, rfl⟩ := Option.map_eq_some'.mp h
                rw [count_cons, count_cons, ih ps r (by simpa using hlen) hr,
                  List.count_cons]
                simp [hp0] <;> omega
            | some t0 => exact absurd h (by simp)
          · rw [if_neg hp0] at h
            obtain ⟨r, hr, rfl⟩ := Option.map_eq_some'.mp h
            rw [count_cons, count_cons, ih ps r (by simpa using hlen) hr,
              List.count_cons]
            simp [hp0] <;> omega

/-! Arithmetic of the rounded frame indices `round(i * interval)` for
`interval = N/f` with `1 ≤ f ≤ N`. -/

theorem interval_one_le (N f : ℕ) (h1 : 1 ≤ f) (hfN : f ≤ N) :
    1 ≤ (N : ℚ) / (f : ℚ) := by
  rw [le_div_iff (by positivity)]
  rw [one_mul]
  exact_mod_cast hfN

theorem rI_floor (N f i : ℕ) (h1 : 1 ≤ f) (hfN : f ≤ N) :
    rround ((i : ℚ) * ((N : ℚ) / (f : ℚ))) =
      ⌊(i : ℚ) * ((N : ℚ) / (f : ℚ)) + 1 / 2⌋ :=
  rround_of_nonneg _ (by positivity)

theorem rI_zero (N f : ℕ) : rround (((0 : ℕ) : ℚ) * ((N : ℚ) / (f : ℚ))) = 0 := by
  rw [Nat.cast_zero, zero_mul]
  rw [rround_of_nonneg _ le_rfl]
  norm_num

theorem rI_nonneg (N f i : ℕ) (h1 : 1 ≤ f) (hfN : f ≤ N) :
    0 ≤ rround ((i : ℚ) * ((N : ℚ) / (f : ℚ))) := by
  exact rround_nonneg _ (by positivity)

theorem rI_succ_ge (N f i : ℕ) (h1 : 1 ≤ f) (hfN : f ≤ N) :
    rround ((i : ℚ) * ((N : ℚ) / (f : ℚ))) + 1 ≤
      rround (((i + 1 : ℕ) : ℚ) * ((N : ℚ) / (f : ℚ))) := by
  have hd1 := interval_one_le N f h1 hfN
  rw [rI_floor N f i h1 hfN, rI_floor N f (i + 1) h1 hfN]
  have hc : ((i + 1 : ℕ) : ℚ) * ((N : ℚ) / (f : ℚ)) =
      (i : ℚ) * ((N : ℚ) / (f : ℚ)) + (N : ℚ) / (f : ℚ) := by
    push_cast
    ring
  rw [hc, ← Int.floor_add_one]
  exact Int.floor_le_floor (by linarith)

theorem rI_le_N_sub_one (N f i : ℕ) (h1 : 1 ≤ f) (hfN : f ≤ N) (hif : i < f) :
    rround ((i : ℚ) * ((N : ℚ) / (f : ℚ))) ≤ (N : ℤ) - 1 := by
  have hd1 := interval_one_le N f h1 hfN
  have hf0 : (f : ℚ) ≠ 0 := by positivity
  have hfd : ((N : ℚ) / (f : ℚ)) * (f : ℚ) = (N : ℚ) := div_mul_cancel₀ _ hf0
  have hi1 : (i : ℚ) + 1 ≤ (f : ℚ) := by exact_mod_cast hif
  have hmul : (i : ℚ) * ((N : ℚ) / (f : ℚ)) ≤
      ((f : ℚ) - 1) * ((N : ℚ) / (f : ℚ)) :=
    mul_le_mul_of_nonneg_right (by linarith) (by linarith)
  have hsub : ((f : ℚ) - 1) * ((N : ℚ) / (f : ℚ)) =
      (N : ℚ) - (N : ℚ) / (f : ℚ) := by
    rw [sub_mul, one_mul, mul_comm, hfd]
  rw [rI_floor N f i h1 hfN]
  have hle : (i : ℚ) * ((N : ℚ) / (f : ℚ)) + 1 / 2 ≤
      ((N - 1 : ℤ) : ℚ) + 1 / 2 := by
    push_cast
    linarith
  calc ⌊(i : ℚ) * ((N : ℚ) / (f : ℚ)) + 1 / 2⌋
      ≤ ⌊((N - 1 : ℤ) : ℚ) + 1 / 2⌋ := Int.floor_le_floor hle
    _ = (N : ℤ) - 1 := by
        rw [Int.floor_int_add]
        norm_num

theorem rI_diff_bounds (N f i : ℕ) (h1 : 1 ≤ f) (hfN : f ≤ N) :
    ⌊(N : ℚ) / (f : ℚ)⌋ ≤
      rround (((i + 1 : ℕ) : ℚ) * ((N : ℚ) / (f : ℚ))) -
        rround ((i : ℚ) * ((N : ℚ) / (f : ℚ))) ∧
    rround (((i + 1 : ℕ) : ℚ) * ((N : ℚ) / (f : ℚ))) -
        rround ((i : ℚ) * ((N : ℚ) / (f : ℚ))) ≤ ⌈(N : ℚ) / (f : ℚ)⌉ := by
  have hd1 := interval_one_le N f h1 hfN
  rw [rI_floor N f i h1 hfN, rI_floor N f (i + 1) h1 hfN]
  have hc : ((i + 1 : ℕ) : ℚ) * ((N : ℚ) / (f : ℚ)) + 1 / 2 =
      ((i : ℚ) * ((N : ℚ) / (f : ℚ)) + 1 / 2) + (N : ℚ) / (f : ℚ) := by
    push_cast
    ring
  rw [hc]
  constructor
  · have hlow : ⌊(i : ℚ) * ((N : ℚ) / (f : ℚ)) + 1 / 2⌋ + ⌊(N : ℚ) / (f : ℚ)⌋ =
        ⌊((i : ℚ) * ((N : ℚ) / (f : ℚ)) + 1 / 2) + (⌊(N : ℚ) / (f : ℚ)⌋ : ℚ)⌋ :=
      (Int.floor_add_int _ _).symm
    have := Int.floor_le_floor
      (a := ((i : ℚ) * ((N : ℚ) / (f : ℚ)) + 1 / 2) + (⌊(N : ℚ) / (f : ℚ)⌋ : ℚ))
      (b := ((i : ℚ) * ((N : ℚ) / (f : ℚ)) + 1 / 2) + (N : ℚ) / (f : ℚ))
      (by have := Int.floor_le ((N : ℚ) / (f : ℚ)); linarith)
    omega
  · have hhigh : ⌊((i : ℚ) * ((N : ℚ) / (f : ℚ)) + 1 / 2) +
        (⌈(N : ℚ) / (f : ℚ)⌉ : ℚ)⌋ =
        ⌊(i : ℚ) * ((N : ℚ) / (f : ℚ)) + 1 / 2⌋ + ⌈(N : ℚ) / (f : ℚ)⌉ :=
      Int.floor_add_int _ _
    have := Int.floor_le_floor
      (a := ((i : ℚ) * ((N : ℚ) / (f : ℚ)) + 1 / 2) + (N : ℚ) / (f : ℚ))
      (b := ((i : ℚ) * ((N : ℚ) / (f : ℚ)) + 1 / 2) + (⌈(N : ℚ) / (f : ℚ)⌉ : ℚ))
      (by have := Int.le_ceil ((N : ℚ) / (f : ℚ)); linarith)
    omega

theorem rI_last_bounds (N f : ℕ) (h1 : 1 ≤ f) (hfN : f ≤ N) :
    ⌊(N : ℚ) / (f : ℚ)⌋ ≤
      (N : ℤ) - rround (((f - 1 : ℕ) : ℚ) * ((N : ℚ) / (f : ℚ))) ∧
    (N : ℤ) - rround (((f - 1 : ℕ) : ℚ) * ((N : ℚ) / (f : ℚ))) ≤
      ⌈(N : ℚ) / (f : ℚ)⌉ := by
  have hd1 := interval_one_le N f h1 hfN
  have hf0 : (f : ℚ) ≠ 0 := by positivity
  have hfd : ((N : ℚ) / (f : ℚ)) * (f : ℚ) = (N : ℚ) := div_mul_cancel₀ _ hf0
  have hcast : ((f - 1 : ℕ) : ℚ) = (f : ℚ) - 1 := by
    have := Nat.cast_sub (R := ℚ) h1
    simpa using this
  have hsub : ((f - 1 : ℕ) : ℚ) * ((N : ℚ) / (f : ℚ)) =
      (N : ℚ) - (N : ℚ) / (f : ℚ) := by
    rw [hcast, sub_mul, one_mul, mul_comm, hfd]
  rw [rI_floor N f (f - 1) h1 hfN, hsub]
  constructor
  · have hle : (N : ℚ) - (N : ℚ) / (f : ℚ) + 1 / 2 ≤
        ((N - ⌊(N : ℚ) / (f : ℚ)⌋ : ℤ) : ℚ) + 1 / 2 := by
      have := Int.floor_le ((N : ℚ) / (f : ℚ))
      push_cast
      linarith
    have := Int.floor_le_floor hle
    rw [Int.floor_int_add] at this
    have h12 : ⌊(1 / 2 : ℚ)⌋ = 0 := by norm_num
    omega
  · have hle : ((N - ⌈(N : ℚ) / (f : ℚ)⌉ : ℤ) : ℚ) + 1 / 2 ≤
        (N : ℚ) - (N : ℚ) / (f : ℚ) + 1 / 2 := by
      have := Int.le_ceil ((N : ℚ) / (f : ℚ))
      push_cast
      linarith
    have := Int.floor_le_floor hle
    rw [Int.floor_int_add] at this
    have h12 : ⌊(1 / 2 : ℚ)⌋ = 0 := by norm_num
    omega

theorem interval_floor_one_le (N f : ℕ) (h1 : 1 ≤ f) (hfN : f ≤ N) :
    1 ≤ ⌊(N : ℚ) / (f : ℚ)⌋ :=
  Int.le_floor.mpr (by exact_mod_cast interval_one_le N f h1 hfN)

/-- The ascending positions below `N` satisfying a predicate that is exactly
the image of a strictly monotone enumeration are that enumeration. -/
theorem filter_range_eq_map (N f : ℕ) (aI : ℕ → ℕ) (p : ℕ → Bool)
    (hmono : ∀ i j, i < j → j < f → aI i < aI j)
    (hlt : ∀ i, i < f → aI i < N)
    (hp : ∀ j, j < N → (p j = true ↔ ∃ i, i < f ∧ aI i = j)) :
    (List.range N).filter p = (List.range f).map aI := by
  have hnod1 : ((List.range N).filter p).Nodup := (List.nodup_range N).filter p
  have hsort1 : ((List.range N).filter p).Sorted (· < ·) :=
    (List.sorted_lt_range N).filter p
  have hsort2 : ((List.range f).map aI).Sorted (· < ·) := by
    rw [List.Sorted, List.pairwise_map]
    refine ((List.sorted_lt_range f).imp_of_mem ?_)
    intro a b ha hb hab
    exact hmono a b hab (List.mem_range.mp hb)
  have hnod2 : ((List.range f).map aI).Nodup :=
    hsort2.imp (fun h => Nat.ne_of_lt h)
  have hmem : ∀ j, j ∈ (List.range N).filter p ↔ j ∈ (List.range f).map aI := by
    intro j
    rw [List.mem_filter, List.mem_range, List.mem_map]
    constructor
    · rintro ⟨hjN, hpj⟩
      obtain ⟨i, hif, hij⟩ := (hp j hjN).mp hpj
      exact ⟨i, List.mem_range.mpr hif, hij⟩
    · rintro ⟨i, hi, rfl⟩
      have hif := List.mem_range.mp hi
      exact ⟨hlt i hif, (hp _ (hlt i hif)).mpr ⟨i, hif, rfl⟩⟩
  have hperm := (List.perm_ext_iff_of_nodup hnod1 hnod2).mpr hmem
  haveI : IsAntisymm ℕ (· < ·) := ⟨fun a b hab hba => absurd hab (by omega)⟩
  exact List.eq_of_perm_of_sorted hperm hsort1 hsort2

theorem getD_map_occupancy {T : Type} [DecidableEq T] (s : List (Option T))
    (j : ℕ) (hj : j < s.length) :
    (s.map (fun slot => if slot = none then 0 else 1)).getD j 0 =
      if s.getD j none = none then 0 else 1 := by
  induction s generalizing j with
  | nil => simp at hj
  | cons s0 s ih =>
      cases j with
      | zero => rfl
      | succ j => exact ih j (by simpa using hj)

/-- The multiplicity of a value is the number of positions holding it. -/
theorem count_eq_filter_range (l : List ℕ) (v : ℕ) :
    l.count v =
      ((List.range l.length).filter (fun j => l.getD j 0 == v)).length := by
  induction l with
  | nil => rfl
  | cons a l ih =>
      have hmap : (List.map Nat.succ (List.range l.length)).filter
          (fun j => (a :: l).getD j 0 == v) =
          ((List.range l.length).filter (fun j => l.getD j 0 == v)).map
            Nat.succ :=
        List.filter_map Nat.succ (List.range l.length)
      rw [List.count_cons, List.length_cons, List.range_succ_eq_map,
        List.filter_cons, hmap]
      by_cases hav : (a == v) = true
      · rw [if_pos hav, if_pos (by simpa using hav)]
        simp only [List.length_cons, List.length_map]
        rw [ih]
      · rw [if_neg hav, if_neg (by simpa using hav)]
        simp only [List.length_map]
        rw [ih, Nat.add_zero]

/-- Every cyclic gap lies between `L` and `U` as soon as all consecutive
differences and the wrap-around do. -/
theorem gapsAux_bound (N first L U : ℕ) :
    ∀ (l : List ℕ) (prev : ℕ),
    List.Chain (fun p q => L ≤ q - p ∧ q - p ≤ U) prev l →
    (L ≤ N - l.getLastD prev + first ∧ N - l.getLastD prev + first ≤ U) →
    ∀ g ∈ gapsAux N first prev l, L ≤ g ∧ g ≤ U := by
  intro l
  induction l with
  | nil =>
      intro prev _ hlast g hg
      simp only [gapsAux, List.mem_singleton] at hg
      subst hg
      exact hlast
  | cons b l ih =>
      intro prev hchain hlast g hg
      rw [List.chain_cons] at hchain
      simp only [gapsAux, List.mem_cons] at hg
      rcases hg with rfl | hg
      · exact hchain.1
      · rw [List.getLastD_cons] at hlast
        exact ih b hchain.2 hlast g hg

/-- Unfolding `Schedule::insert` for a non-zero frequency, with
`duration = 1 s` simplified away. -/
theorem insert_eq_cases {T : Type} [DecidableEq T] (s : List (Option T)) (f : ℕ)
    (t : T) (hf0 : f ≠ 0) :
    insert s f t =
      match buildCandidate s.length ((s.length : ℚ) / (f : ℚ)) f with
      | none => none
      | some cand =>
          let tu := s.map (fun slot => if slot = none then 0 else 1)
          let mt := searchLoop tu cand
          if mt.1 = 0 then
            match commitZip t s (cand.rotate mt.2) with
            | some s2 => some (none, s2)
            | none => none
          else some (some "task does not fit current schedule", s) := by
  unfold insert
  rw [if_neg hf0]
  simp only [durationSecs, div_one, one_mul, rround_natCast, Int.toNat_natCast]

theorem aI_strictMono (N f : ℕ) (h1 : 1 ≤ f) (hfN : f ≤ N) :
    StrictMono (fun i : ℕ => (rround ((i : ℚ) * ((N : ℚ) / (f : ℚ)))).toNat) := by
  refine strictMono_nat_of_lt_succ (fun n => ?_)
  have hs := rI_succ_ge N f n h1 hfN
  have h0 := rI_nonneg N f n h1 hfN
  have h0s := rI_nonneg N f (n + 1) h1 hfN
  show (rround ((n : ℚ) * ((N : ℚ) / (f : ℚ)))).toNat <
    (rround (((n + 1 : ℕ) : ℚ) * ((N : ℚ) / (f : ℚ)))).toNat
  omega

theorem aI_lt (N f i : ℕ) (h1 : 1 ≤ f) (hfN : f ≤ N) (hif : i < f) :
    (rround ((i : ℚ) * ((N : ℚ) / (f : ℚ)))).toNat < N := by
  have hub := rI_le_N_sub_one N f i h1 hfN hif
  have hnn := rI_nonneg N f i h1 hfN
  omega

/-- The candidate pattern holds exactly `f` ones, located at the strictly
increasing rounded frame indices. -/
theorem cand_count_eq (N f : ℕ) (cand : List ℕ) (h1 : 1 ≤ f) (hfN : f ≤ N)
    (hclen : cand.length = N)
    (hc1 : ∀ j, (∃ i, i < f ∧
      (rround ((i : ℚ) * ((N : ℚ) / (f : ℚ)))).toNat = j) → cand.getD j 0 = 1)
    (hc0 : ∀ j, (¬ ∃ i, i < f ∧
      (rround ((i : ℚ) * ((N : ℚ) / (f : ℚ)))).toNat = j) → cand.getD j 0 = 0) :
    (List.range N).filter (fun j => cand.getD j 0 == 1) =
      (List.range f).map
        (fun i : ℕ => (rround ((i : ℚ) * ((N : ℚ) / (f : ℚ)))).toNat) ∧
    cand.count 1 = f := by
  have hmap : (List.range N).filter (fun j => cand.getD j 0 == 1) =
      (List.range f).map
        (fun i : ℕ => (rround ((i : ℚ) * ((N : ℚ) / (f : ℚ)))).toNat) := by
    refine filter_range_eq_map N f
      (fun i : ℕ => (rround ((i : ℚ) * ((N : ℚ) / (f : ℚ)))).toNat)
      (fun j => cand.getD j 0 == 1)
      (fun i j hij hjf => aI_strictMono N f h1 hfN hij)
      (fun i hif => aI_lt N f i h1 hfN hif)
      (fun j hjN => ?_)
    constructor
    · intro hpj
      by_contra hno
      have h0 := hc0 j hno
      have hb : (cand.getD j 0 == 1) = true := hpj
      rw [h0] at hb
      exact absurd hb (by decide)
    · intro hex
      show (cand.getD j 0 == 1) = true
      rw [hc1 j hex]
      rfl
  refine ⟨hmap, ?_⟩
  rw [count_eq_filter_range cand 1, hclen, hmap, List.length_map,
    List.length_range]

theorem buildAux_succ (ivl : ℚ) (k i : ℕ) (acc : List ℕ) :
    buildAux ivl (k + 1) i acc =
      match setOne acc (rround ((i : ℚ) * ivl)).toNat with
      | some acc2 => buildAux ivl k (i + 1) acc2
      | none => none := rfl

/-- Claim C8, counterexample: `Schedule::insert` is not total for every
frequency and schedule state: on a 1-slot schedule, frequency 2 rounds the
frame index `1 * (1/2)` to `1`, out of bounds for the candidate vector, and
the code panics (modelled as `none`) instead of returning `Ok` or `Err`. -/
theorem c8_insert_total_cex :
    Schedule.insert ([none] : List (Option ℕ)) 2 0 = none := by
  rw [insert_eq_cases ([none] : List (Option ℕ)) 2 0 (by norm_num)]
  have e0 : (rround (((0 : ℕ) : ℚ) *
      ((([none] : List (Option ℕ)).length : ℚ) / ((2 : ℕ) : ℚ)))).toNat = 0 := by
    norm_num [rround]
  have e1 : (rround (((0 + 1 : ℕ) : ℚ) *
      ((([none] : List (Option ℕ)).length : ℚ) / ((2 : ℕ) : ℚ)))).toNat = 1 := by
    norm_num [rround]
  have hbc : buildCandidate ([none] : List (Option ℕ)).length
      ((([none] : List (Option ℕ)).length : ℚ) / ((2 : ℕ) : ℚ)) 2 = none := by
    show buildAux _ 2 0 [0] = none
    rw [buildAux_succ, e0]
    show buildAux _ 1 (0 + 1) [1] = none
    rw [buildAux_succ, e1]
    rfl
  rw [hbc]

/-- Claim C8, amended: for every frequency `f` with `1 ≤ f ≤ size` and every
schedule state, every candidate index `round(i * interval)` for
`i < round(duration * f) = f` is strictly below the size, and the operation
returns `Ok` or `Err` without out-of-bounds access or panic. -/
theorem c8_insert_total {T : Type} [DecidableEq T] (s : List (Option T))
    (f : ℕ) (t : T) (h1 : 1 ≤ f) (hfN : f ≤ s.length) :
    (∀ i, i < f →
      (rround ((i : ℚ) * ((s.length : ℚ) / (f : ℚ)))).toNat < s.length) ∧
    ∃ r, insert s f t = some r := by
  have hf0 : f ≠ 0 := by omega
  have hidx : ∀ i, i < f →
      (rround ((i : ℚ) * ((s.length : ℚ) / (f : ℚ)))).toNat < s.length :=
    fun i hif => aI_lt s.length f i h1 hfN hif
  refine ⟨hidx, ?_⟩
  obtain ⟨cand, hcand, hclen, -, -⟩ :=
    buildCandidate_spec s.length ((s.length : ℚ) / (f : ℚ)) f hidx
  rw [insert_eq_cases s f t hf0, hcand]
  set tu := s.map (fun slot => if slot = none then 0 else 1) with htu
  rcases hmt : searchLoop tu cand with ⟨m, tau⟩
  by_cases hm : m = 0
  · subst hm
    have hinv := searchAux_spec tu cand tu.length 0 usizeMax 0 (Or.inl rfl)
    rw [show searchAux tu cand tu.length 0 usizeMax 0 = searchLoop tu cand
      from rfl, hmt] at hinv
    rcases hinv with h | h
    · exact absurd h (by norm_num [usizeMax])
    · have hempty : ∀ j, j < s.length → (cand.rotate tau).getD j 0 = 1 →
          s.getD j none = none := by
        intro j hj hpat
        have hz := overlapAt_zero_pointwise tu cand tau j h
          (by rw [htu, List.length_map]; exact hj) hpat
        rw [htu, getD_map_occupancy s j hj] at hz
        by_contra hne
        rw [if_neg hne] at hz
        omega
      obtain ⟨s2, hs2⟩ := commitZip_total t s (cand.rotate tau) hempty
      refine ⟨(none, s2), ?_⟩
      show (let tu2 := tu
        let mt := searchLoop tu2 cand
        if mt.1 = 0 then
          match commitZip t s (cand.rotate mt.2) with
          | some s2 => some (none, s2)
          | none => none
        else some (some "task does not fit current schedule", s)) = _
      simp only [hmt, hs2]
      simp
  · refine ⟨(some "task does not fit current schedule", s), ?_⟩
    show (let tu2 := tu
      let mt := searchLoop tu2 cand
      if mt.1 = 0 then
        match commitZip t s (cand.rotate mt.2) with
        | some s2 => some (none, s2)
        | none => none
      else some (some "task does not fit current schedule", s)) = _
    simp only [hmt, if_neg hm]

/-- Witness for C8 (amended) on a 4-slot schedule with one occupied slot. -/
theorem c8_insert_total_witness :
    ∃ r, Schedule.insert [none, some 9, none, none] 2 (7 : ℕ) = some r :=
  (c8_insert_total [none, some 9, none, none] 2 7 (by decide) (by decide)).2

/-- A non-panicking `insert` with non-zero frequency either committed a
pattern whose search offset had zero overlap, or failed leaving the slots
unchanged. -/
theorem insert_result {T : Type} [DecidableEq T] (s : List (Option T))
    (f : ℕ) (t : T) (hf0 : f ≠ 0) (r : Option String × List (Option T))
    (hr : insert s f t = some r) :
    (∃ cand tau s2,
      buildCandidate s.length ((s.length : ℚ) / (f : ℚ)) f = some cand ∧
      searchLoop (s.map (fun slot => if slot = none then 0 else 1)) cand =
        (0, tau) ∧
      commitZip t s (cand.rotate tau) = some s2 ∧ r = (none, s2)) ∨
    r = (some "task does not fit current schedule", s) := by
  rw [insert_eq_cases s f t hf0] at hr
  cases hb : buildCandidate s.length ((s.length : ℚ) / (f : ℚ)) f with
  | none =>
      rw [hb] at hr
      exact absurd hr (by simp)
  | some cand =>
      rw [hb] at hr
      have hr2 : (if (searchLoop
            (s.map (fun slot => if slot = none then 0 else 1)) cand).1 = 0 then
          match commitZip t s (cand.rotate (searchLoop
            (s.map (fun slot => if slot = none then 0 else 1)) cand).2) with
          | some s2 => some (none, s2)
          | none => none
        else some (some "task does not fit current schedule", s)) = some r := hr
      rcases hmt : searchLoop
          (s.map (fun slot => if slot = none then 0 else 1)) cand with ⟨m, tau⟩
      rw [hmt] at hr2
      by_cases hm : m = 0
      · subst hm
        have hr3 : (match commitZip t s (cand.rotate tau) with
            | some s2 => some ((none : Option String), s2)
            | none => none) = some r := hr2
        cases hcz : commitZip t s (cand.rotate tau) with
        | none =>
            rw [hcz] at hr3
            exact absurd hr3 (by simp)
        | some s2 =>
            rw [hcz] at hr3
            exact Or.inl ⟨cand, tau, s2, rfl, hmt, hcz,
              (Option.some.inj hr3).symm⟩
      · rw [if_neg (show ¬((m, tau).1 = 0) from hm)] at hr2
        exact Or.inr (Option.some.inj hr2).symm

/-- Claim C9, counterexample: `insert` with frequency `0` takes the `delete`
path and clears the task's own slots — it does modify a slot that was
occupied before the call (and removes the existing schedule of the task
rather than leaving it in place). -/
theorem c9_insert_frame_effect_cex :
    Schedule.insert [some (7 : ℕ)] 0 7 = some (none, [none]) ∧
    [some (7 : ℕ)].getD 0 none = some 7 ∧
    ([none] : List (Option ℕ)).getD 0 none = none := by
  refine ⟨by decide, rfl, rfl⟩

/-- Claim C9, amended: for every frequency `f ≥ 1` (the non-`delete` path),
`Schedule::insert` never modifies a slot that was occupied before the call:
on failure no slot changes, and on success the task is written only into
slots that were previously empty.  Consequently, inserting a task that is
already scheduled leaves its existing slots in place and, on success with
`f ≤ size`, increases `count(task)` by `round(duration·f) = f` instead of
replacing the previously programmed rate. -/
theorem c9_insert_frame_effect {T : Type} [DecidableEq T]
    (s : List (Option T)) (f : ℕ) (t : T) (h1 : 1 ≤ f) :
    (∀ msg s2, insert s f t = some (some msg, s2) → s2 = s) ∧
    (∀ s2, insert s f t = some (none, s2) →
      (∀ j, s.getD j none ≠ none → s2.getD j none = s.getD j none) ∧
      (∀ j, s2.getD j none ≠ s.getD j none →
        s.getD j none = none ∧ s2.getD j none = some t) ∧
      (f ≤ s.length → count s2 t = count s t + f)) := by
  have hf0 : f ≠ 0 := by omega
  constructor
  · intro msg s2 h
    rcases insert_result s f t hf0 _ h with ⟨c, tau, s3, -, -, -, hps⟩ | hps
    · exact absurd hps (by simp)
    · exact congrArg Prod.snd hps
  · intro s2 h
    rcases insert_result s f t hf0 _ h with
      ⟨cand, tau, s3, hcand, hmt, hcz, hps⟩ | hps
    · have hs3 : s3 = s2 := (congrArg Prod.snd hps).symm
      subst hs3
      obtain ⟨hmark, hkeep⟩ := commitZip_spec t s (cand.rotate tau) s3 hcz
      have hlen2 : s3.length = s.length := commitZip_length t s _ s3 hcz
      refine ⟨?_, ?_, ?_⟩
      · intro j hocc
        by_cases hpat : (cand.rotate tau).getD j 0 = 1
        · by_cases hj : j < s.length
          · exact absurd (hmark j hj hpat).1 hocc
          · rw [List.getD_eq_default _ _ (by omega)] at hocc
            exact absurd rfl hocc
        · exact hkeep j hpat
      · intro j hch
        by_cases hj : j < s.length
        · by_cases hpat : (cand.rotate tau).getD j 0 = 1
          · exact hmark j hj hpat
          · exact absurd (hkeep j hpat) hch
        · rw [List.getD_eq_default _ _ (by omega),
            List.getD_eq_default _ _ (by omega)] at hch
          exact absurd rfl hch
      · intro hfN
        obtain ⟨cand2, hcand2, hclen2, hc1, hc0⟩ :=
          buildCandidate_spec s.length ((s.length : ℚ) / (f : ℚ)) f
            (fun i hif => aI_lt s.length f i h1 hfN hif)
        rw [hcand] at hcand2
        obtain rfl : cand2 = cand := (Option.some.inj hcand2).symm
        have hcnt := commitZip_count t s (cand2.rotate tau) s3
          (by rw [List.length_rotate, hclen2]) hcz
        rw [hcnt]
        have hrot : (cand2.rotate tau).count 1 = cand2.count 1 :=
          (List.rotate_perm cand2 tau).count_eq 1
        rw [hrot, (cand_count_eq s.length f cand2 h1 hfN hclen2 hc1 hc0).2]
    · exact absurd (congrArg Prod.fst hps) (by simp)

/-- A concrete `insert` run: task 7 at 1 Hz on a 2-slot schedule whose first
slot is taken; the pattern is shifted to the free slot. -/
theorem insert_run_two_one :
    Schedule.insert [some (9 : ℕ), none] 1 7 = some (none, [some 9, some 7]) := by
  rw [insert_eq_cases [some (9 : ℕ), none] 1 7 (by norm_num)]
  have e0 : (rround (((0 : ℕ) : ℚ) *
      ((([some (9 : ℕ), none] : List (Option ℕ)).length : ℚ) /
        ((1 : ℕ) : ℚ)))).toNat = 0 := by
    norm_num [rround]
  have hbc : buildCandidate ([some (9 : ℕ), none] : List (Option ℕ)).length
      ((([some (9 : ℕ), none] : List (Option ℕ)).length : ℚ) / ((1 : ℕ) : ℚ))
      1 = some [1, 0] := by
    show buildAux _ 1 0 [0, 0] = some [1, 0]
    rw [buildAux_succ, e0]
    rfl
  rw [hbc]
  decide

/-- Witness for C9 (amended): inserting task 7 at 1 Hz next to the already
scheduled task 9 keeps task 9's slot and adds one slot of task 7. -/
theorem c9_insert_frame_effect_witness :
    Schedule.count [some (9 : ℕ), some 7] 7 =
      Schedule.count [some (9 : ℕ), none] 7 + 1 :=
  ((c9_insert_frame_effect [some (9 : ℕ), none] 1 7 (by decide)).2
    [some 9, some 7] insert_run_two_one).2.2 (by decide)

theorem getD_replicate {α : Type} (N j : ℕ) (d : α) :
    (List.replicate N d).getD j d = d := by
  induction N generalizing j with
  | zero => simp
  | succ N ih =>
      cases j with
      | zero => rfl
      | succ j => exact ih j

theorem count_replicate_none {T : Type} [DecidableEq T] (N : ℕ) (task : T) :
    count (List.replicate N (none : Option T)) task = 0 := by
  induction N with
  | zero => rfl
  | succ N ih =>
      rw [List.replicate_succ, count_cons, ih]
      simp

theorem getLastD_map_range (g : ℕ → ℕ) (k d : ℕ) (hk : k ≠ 0) :
    ((List.range k).map g).getLastD d = g (k - 1) := by
  obtain ⟨m, rfl⟩ : ∃ m, k = m + 1 := ⟨k - 1, by omega⟩
  rw [List.range_succ, List.map_append, List.map_singleton,
    List.getLastD_concat]
  simp

set_option maxHeartbeats 1000000 in
/-- Claim C6, amended: for every task and every frequency `f` with
`1 ≤ f ≤ N`, after `insert(task, f)` succeeds on an empty schedule of `N`
slots with duration 1 s, `count(task)` equals `round(f) = f`, and over the
cyclic sequence of slots holding the task the maximum gap between
consecutive occurrences exceeds the minimum gap by at most 1. -/
theorem c6_schedule_density (N f task : ℕ) (s2 : List (Option ℕ))
    (h1 : 1 ≤ f) (hfN : f ≤ N)
    (hins : Schedule.insert (List.replicate N none) f task =
      some (none, s2)) :
    Schedule.count s2 task = f ∧
    (∀ g1 ∈ Schedule.cycGaps N ((List.range N).filter
        (fun j => decide (s2.getD j none = some task))),
     ∀ g2 ∈ Schedule.cycGaps N ((List.range N).filter
        (fun j => decide (s2.getD j none = some task))),
      g1 ≤ g2 + 1) := by
  have hf0 : f ≠ 0 := by omega
  have hNlen : (List.replicate N (none : Option ℕ)).length = N :=
    List.length_replicate N none
  rcases insert_result (List.replicate N none) f task hf0 _ hins with
    ⟨candr, tau, s3, hcand, hmt, hcz, hps⟩ | hps
  swap
  · exact absurd (congrArg Prod.fst hps) (by simp)
  have hs23 : s2 = s3 := congrArg Prod.snd hps
  rw [← hs23] at hcz
  rw [hNlen] at hcand
  obtain ⟨cand2, hcand2, hclen, hc1, hc0⟩ :=
    buildCandidate_spec N ((N : ℚ) / (f : ℚ)) f
      (fun i hif => aI_lt N f i h1 hfN hif)
  rw [hcand] at hcand2
  obtain rfl : cand2 = candr := (Option.some.inj hcand2).symm
  have htu0 : ∀ x ∈ (List.replicate N (none : Option ℕ)).map
      (fun slot => if slot = none then 0 else 1), x = 0 := by
    intro x hx
    rw [List.mem_map] at hx
    obtain ⟨a, ha, rfl⟩ := hx
    rw [List.eq_of_mem_replicate ha]
    rfl
  have hsl := searchLoop_empty
    ((List.replicate N (none : Option ℕ)).map
      (fun slot => if slot = none then 0 else 1)) cand2 htu0
    (by rw [List.length_map, hNlen]; omega)
  rw [hmt] at hsl
  obtain rfl : tau = 0 := congrArg Prod.snd hsl
  rw [List.rotate_zero] at hcz
  obtain ⟨hmark, hkeep⟩ :=
    commitZip_spec task (List.replicate N none) cand2 s2 hcz
  have hpt : ∀ j, j < N →
      (s2.getD j none = some task ↔ cand2.getD j 0 = 1) := by
    intro j hj
    constructor
    · intro hsj
      by_contra hpat
      have hk := hkeep j hpat
      rw [getD_replicate] at hk
      rw [hk] at hsj
      exact absurd hsj (by simp)
    · intro hpat
      exact (hmark j (by rw [hNlen]; exact hj) hpat).2
  have hocc : (List.range N).filter
      (fun j => decide (s2.getD j none = some task)) =
      (List.range f).map
        (fun i : ℕ => (rround ((i : ℚ) * ((N : ℚ) / (f : ℚ)))).toNat) := by
    refine filter_range_eq_map N f
      (fun i : ℕ => (rround ((i : ℚ) * ((N : ℚ) / (f : ℚ)))).toNat)
      (fun j => decide (s2.getD j none = some task))
      (fun i j hij hjf => aI_strictMono N f h1 hfN hij)
      (fun i hif => aI_lt N f i h1 hfN hif)
      (fun j hjN => ?_)
    rw [decide_eq_true_eq, hpt j hjN]
    constructor
    · intro hpat
      by_contra hno
      rw [hc0 j hno] at hpat
      exact absurd hpat (by decide)
    · exact hc1 j
  have hcnt : Schedule.count s2 task = f := by
    have h3 := commitZip_count task (List.replicate N none) cand2 s2
      (by rw [hclen, hNlen]) hcz
    rw [h3, count_replicate_none,
      (cand_count_eq N f cand2 h1 hfN hclen hc1 hc0).2, Nat.zero_add]
  refine ⟨hcnt, ?_⟩
  have hLf := interval_floor_one_le N f h1 hfN
  have hceil := Int.ceil_le_floor_add_one ((N : ℚ) / (f : ℚ))
  have hbound : ∀ g ∈ Schedule.cycGaps N ((List.range N).filter
      (fun j => decide (s2.getD j none = some task))),
      ⌊(N : ℚ) / (f : ℚ)⌋.toNat ≤ g ∧ g ≤ ⌈(N : ℚ) / (f : ℚ)⌉.toNat := by
    rw [hocc]
    obtain ⟨k, rfl⟩ : ∃ k, f = k + 1 := ⟨f - 1, by omega⟩
    have hch : List.Chain'
        (fun a b => ⌊(N : ℚ) / ((k + 1 : ℕ) : ℚ)⌋.toNat ≤ b - a ∧
          b - a ≤ ⌈(N : ℚ) / ((k + 1 : ℕ) : ℚ)⌉.toNat)
        ((List.range (k + 1)).map
          (fun i : ℕ =>
            (rround ((i : ℚ) * ((N : ℚ) / ((k + 1 : ℕ) : ℚ)))).toNat)) := by
      rw [List.chain'_map, List.chain'_range_succ]
      intro m hm
      simp only [Nat.succ_eq_add_one]
      have hd := rI_diff_bounds N (k + 1) m h1 hfN
      have ha := rI_nonneg N (k + 1) m h1 hfN
      have hb := rI_nonneg N (k + 1) (m + 1) h1 hfN
      constructor <;> omega
    rw [List.range_succ_eq_map, List.map_cons, List.map_map] at hch ⊢
    have hlast : ((List.range k).map
        ((fun i : ℕ =>
          (rround ((i : ℚ) * ((N : ℚ) / ((k + 1 : ℕ) : ℚ)))).toNat) ∘
            Nat.succ)).getLastD
        ((rround (((0 : ℕ) : ℚ) * ((N : ℚ) / ((k + 1 : ℕ) : ℚ)))).toNat) =
        (rround (((k : ℕ) : ℚ) * ((N : ℚ) / ((k + 1 : ℕ) : ℚ)))).toNat := by
      rcases Nat.eq_zero_or_pos k with rfl | hkpos
      · rfl
      · rw [getLastD_map_range _ k _ (by omega)]
        show (rround (((Nat.succ (k - 1) : ℕ) : ℚ) *
          ((N : ℚ) / ((k + 1 : ℕ) : ℚ)))).toNat = _
        rw [show Nat.succ (k - 1) = k by omega]
    have hzero : (rround (((0 : ℕ) : ℚ) *
        ((N : ℚ) / ((k + 1 : ℕ) : ℚ)))).toNat = 0 := by
      rw [rI_zero]
      rfl
    have hlb := rI_last_bounds N (k + 1) h1 hfN
    rw [Nat.add_sub_cancel] at hlb
    have hak0 := rI_nonneg N (k + 1) k h1 hfN
    have haklt := rI_le_N_sub_one N (k + 1) k h1 hfN (by omega)
    refine gapsAux_bound N _ _ _ _ _ ?_ ?_
    · exact hch
    · rw [hlast, hzero]
      constructor <;> omega
  intro g1 hg1 g2 hg2
  have b1 := hbound g1 hg1
  have b2 := hbound g2 hg2
  omega

set_option maxRecDepth 100000 in
/-- A concrete run: 2 Hz on an empty 4-slot schedule. -/
theorem insert_run_four_two :
    Schedule.insert (List.replicate 4 (none : Option ℕ)) 2 (0 : ℕ) = some (none, [some 0, none, some 0, none]) := by
  rw [insert_eq_cases (List.replicate 4 (none : Option ℕ)) 2 0 (by norm_num)]
  have e0 : (rround (((0 : ℕ) : ℚ) *
      (((List.replicate 4 (none : Option ℕ)).length : ℚ) / ((2 : ℕ) : ℚ)))).toNat = 0 := by
    norm_num [rround, List.length_replicate] <;> omega
  have e1 : (rround (((1 : ℕ) : ℚ) *
      (((List.replicate 4 (none : Option ℕ)).length : ℚ) / ((2 : ℕ) : ℚ)))).toNat = 2 := by
    norm_num [rround, List.length_replicate] <;> omega
  have hbc : buildCandidate (List.replicate 4 (none : Option ℕ)).length
      (((List.replicate 4 (none : Option ℕ)).length : ℚ) / ((2 : ℕ) : ℚ)) 2 = some [1, 0, 1, 0] := by
    show buildAux _ 2 0 [0, 0, 0, 0] = some [1, 0, 1, 0]
    rw [buildAux_succ, e0]
    show buildAux _ 1 1 [1, 0, 0, 0] = some [1, 0, 1, 0]
    rw [buildAux_succ, e1]
    rfl
  rw [hbc]
  decide

set_option maxRecDepth 1000000 in
/-- A concrete run: 11 Hz on an empty 10-slot schedule succeeds, but the
rounded frame indices for i = 5 and i = 6 collide at slot 5, so only ten
slots are filled. -/
theorem insert_run_ten_eleven :
    Schedule.insert (List.replicate 10 (none : Option ℕ)) 11 (5 : ℕ) = some (none, List.replicate 10 (some 5)) := by
  rw [insert_eq_cases (List.replicate 10 (none : Option ℕ)) 11 5 (by norm_num)]
  have e0 : (rround (((0 : ℕ) : ℚ) *
      (((List.replicate 10 (none : Option ℕ)).length : ℚ) / ((11 : ℕ) : ℚ)))).toNat = 0 := by
    norm_num [rround, List.length_replicate] <;> omega
  have e1 : (rround (((1 : ℕ) : ℚ) *
      (((List.replicate 10 (none : Option ℕ)).length : ℚ) / ((11 : ℕ) : ℚ)))).toNat = 1 := by
    norm_num [rround, List.length_replicate] <;> omega
  have e2 : (rround (((2 : ℕ) : ℚ) *
      (((List.replicate 10 (none : Option ℕ)).length : ℚ) / ((11 : ℕ) : ℚ)))).toNat = 2 := by
    norm_num [rround, List.length_replicate] <;> omega
  have e3 : (rround (((3 : ℕ) : ℚ) *
      (((List.replicate 10 (none : Option ℕ)).length : ℚ) / ((11 : ℕ) : ℚ)))).toNat = 3 := by
    norm_num [rround, List.length_replicate] <;> omega
  have e4 : (rround (((4 : ℕ) : ℚ) *
      (((List.replicate 10 (none : Option ℕ)).length : ℚ) / ((11 : ℕ) : ℚ)))).toNat = 4 := by
    norm_num [rround, List.length_replicate] <;> omega
  have e5 : (rround (((5 : ℕ) : ℚ) *
      (((List.replicate 10 (none : Option ℕ)).length : ℚ) / ((11 : ℕ) : ℚ)))).toNat = 5 := by
    norm_num [rround, List.length_replicate] <;> omega
  have e6 : (rround (((6 : ℕ) : ℚ) *
      (((List.replicate 10 (none : Option ℕ)).length : ℚ) / ((11 : ℕ) : ℚ)))).toNat = 5 := by
    norm_num [rround, List.length_replicate] <;> omega
  have e7 : (rround (((7 : ℕ) : ℚ) *
      (((List.replicate 10 (none : Option ℕ)).length : ℚ) / ((11 : ℕ) : ℚ)))).toNat = 6 := by
    norm_num [rround, List.length_replicate] <;> omega
  have e8 : (rround (((8 : ℕ) : ℚ) *
      (((List.replicate 10 (none : Option ℕ)).length : ℚ) / ((11 : ℕ) : ℚ)))).toNat = 7 := by
    norm_num [rround, List.length_replicate] <;> omega
  have e9 : (rround (((9 : ℕ) : ℚ) *
      (((List.replicate 10 (none : Option ℕ)).length : ℚ) / ((11 : ℕ) : ℚ)))).toNat = 8 := by
    norm_num [rround, List.length_replicate] <;> omega
  have e10 : (rround (((10 : ℕ) : ℚ) *
      (((List.replicate 10 (none : Option ℕ)).length : ℚ) / ((11 : ℕ) : ℚ)))).toNat = 9 := by
    norm_num [rround, List.length_replicate] <;> omega
  have hbc : buildCandidate (List.replicate 10 (none : Option ℕ)).length
      (((List.replicate 10 (none : Option ℕ)).length : ℚ) / ((11 : ℕ) : ℚ)) 11 = some [1, 1, 1, 1, 1, 1, 1, 1, 1, 1] := by
    show buildAux _ 11 0 [0, 0, 0, 0, 0, 0, 0, 0, 0, 0] = some [1, 1, 1, 1, 1, 1, 1, 1, 1, 1]
    rw [buildAux_succ, e0]
    show buildAux _ 10 1 [1, 0, 0, 0, 0, 0, 0, 0, 0, 0] = some [1, 1, 1, 1, 1, 1, 1, 1, 1, 1]
    rw [buildAux_succ, e1]
    show buildAux _ 9 2 [1, 1, 0, 0, 0, 0, 0, 0, 0, 0] = some [1, 1, 1, 1, 1, 1, 1, 1, 1, 1]
    rw [buildAux_succ, e2]
    show buildAux _ 8 3 [1, 1, 1, 0, 0, 0, 0, 0, 0, 0] = some [1, 1, 1, 1, 1, 1, 1, 1, 1, 1]
    rw [buildAux_succ, e3]
    show buildAux _ 7 4 [1, 1, 1, 1, 0, 0, 0, 0, 0, 0] = some [1, 1, 1, 1, 1, 1, 1, 1, 1, 1]
    rw [buildAux_succ, e4]
    show buildAux _ 6 5 [1, 1, 1, 1, 1, 0, 0, 0, 0, 0] = some [1, 1, 1, 1, 1, 1, 1, 1, 1, 1]
    rw [buildAux_succ, e5]
    show buildAux _ 5 6 [1, 1, 1, 1, 1, 1, 0, 0, 0, 0] = some [1, 1, 1, 1, 1, 1, 1, 1, 1, 1]
    rw [buildAux_succ, e6]
    show buildAux _ 4 7 [1, 1, 1, 1, 1, 1, 0, 0, 0, 0] = some [1, 1, 1, 1, 1, 1, 1, 1, 1, 1]
    rw [buildAux_succ, e7]
    show buildAux _ 3 8 [1, 1, 1, 1, 1, 1, 1, 0, 0, 0] = some [1, 1, 1, 1, 1, 1, 1, 1, 1, 1]
    rw [buildAux_succ, e8]
    show buildAux _ 2 9 [1, 1, 1, 1, 1, 1, 1, 1, 0, 0] = some [1, 1, 1, 1, 1, 1, 1, 1, 1, 1]
    rw [buildAux_succ, e9]
    show buildAux _ 1 10 [1, 1, 1, 1, 1, 1, 1, 1, 1, 0] = some [1, 1, 1, 1, 1, 1, 1, 1, 1, 1]
    rw [buildAux_succ, e10]
    rfl
  rw [hbc]
  decide


set_option maxRecDepth 100000 in
/-- Claim C6, counterexample: on an empty 10-slot schedule `insert(task, 11)`
succeeds (`Ok`), yet `count(task) = 10 ≠ 11 = round(duration · f)`: two
rounded frame indices collide, so the claim fails without the restriction
`f ≤ N`. -/
theorem c6_schedule_density_cex :
    Schedule.insert (List.replicate 10 (none : Option ℕ)) 11 5 =
      some (none, List.replicate 10 (some 5)) ∧
    Schedule.count (List.replicate 10 (some (5 : ℕ))) 5 = 10 ∧
    (Schedule.rround (Schedule.durationSecs * (11 : ℚ))).toNat = 11 ∧
    (10 : ℕ) ≠ 11 := by
  refine ⟨insert_run_ten_eleven, by decide, ?_, by decide⟩
  norm_num [Schedule.rround, Schedule.durationSecs] <;> omega

/-- Witness for C6 (amended): 2 Hz on an empty 4-slot schedule leaves two
occurrences. -/
theorem c6_schedule_density_witness :
    Schedule.count [some (0 : ℕ), none, some 0, none] 0 = 2 :=
  (c6_schedule_density 4 2 0 [some 0, none, some 0, none]
    (by decide) (by decide) insert_run_four_two).1

set_option maxRecDepth 100000 in
/-- A concrete run: 1 Hz on an empty 4-slot schedule. -/
theorem insert_run_four_one :
    Schedule.insert (List.replicate 4 (none : Option ℕ)) 1 (30 : ℕ) = some (none, [some 30, none, none, none]) := by
  rw [insert_eq_cases (List.replicate 4 (none : Option ℕ)) 1 30 (by norm_num)]
  have e0 : (rround (((0 : ℕ) : ℚ) *
      (((List.replicate 4 (none : Option ℕ)).length : ℚ) / ((1 : ℕ) : ℚ)))).toNat = 0 := by
    norm_num [rround, List.length_replicate] <;> omega
  have hbc : buildCandidate (List.replicate 4 (none : Option ℕ)).length
      (((List.replicate 4 (none : Option ℕ)).length : ℚ) / ((1 : ℕ) : ℚ)) 1 = some [1, 0, 0, 0] := by
    show buildAux _ 1 0 [0, 0, 0, 0] = some [1, 0, 0, 0]
    rw [buildAux_succ, e0]
    rfl
  rw [hbc]
  decide

end Schedule

namespace Core

open Schedule

/-- Claim C7, counterexample: the event loop computes the frequency with a
truncating `as u32` cast, not `round`: for `interval_us = 600000` the code
uses `trunc(1e6/600000) = 1` while the claim's `round` gives `2`, and the
resulting schedule holds one slot of the task, not two. -/
theorem c7_message_interval_cex :
    freqOfInterval 600000 = 1 ∧
    claimFreqOfInterval 600000 = 2 ∧
    messageIntervalStep (List.replicate 4 none) 30 600000 =
      some (none, [some 30, none, none, none]) ∧
    Schedule.count [some (30 : ℕ), none, none, none] 30 = 1 ∧
    (1 : ℕ) ≠ 2 := by
  have hfe : freqOfInterval 600000 = 1 := by
    norm_num [freqOfInterval, u32Max] <;> omega
  refine ⟨hfe, ?_, ?_, by decide, by decide⟩
  · norm_num [claimFreqOfInterval, rround] <;> omega
  · show Schedule.insert (List.replicate 4 none) (freqOfInterval 600000) 30 = _
    rw [hfe]
    exact insert_run_four_one

/-- Claim C7, amended: on `MESSAGE_INTERVAL { message_id, interval_us }` with
a positive interval the loop computes
`freq_hz = trunc(1_000_000 / interval_us)` (saturating `as u32` cast, i.e.
the integer part, not `round`) and calls
`scheduler.insert(freq_hz, message_id)`, ignoring the result; if the insert
reports a conflict, the prior schedule is kept unchanged. -/
theorem c7_message_interval (s : List (Option ℕ)) (id : ℕ) (iv : ℤ)
    (hiv : 0 < iv) :
    messageIntervalStep s id iv =
      Schedule.insert s (min ⌊(1000000 : ℚ) / (iv : ℚ)⌋.toNat u32Max) id ∧
    (∀ msg s2, Schedule.insert s (freqOfInterval iv) id = some (some msg, s2) →
      s2 = s) := by
  constructor
  · show Schedule.insert s (freqOfInterval iv) id = _
    have hfr : freqOfInterval iv =
        min ⌊(1000000 : ℚ) / (iv : ℚ)⌋.toNat u32Max := by
      unfold freqOfInterval
      rw [if_neg (by omega)]
      have hq : ¬((1000000 : ℚ) / (iv : ℚ) < 0) := by
        have h0 : (0 : ℚ) < (iv : ℚ) := by exact_mod_cast hiv
        exact not_lt.mpr (by positivity)
      rw [if_neg hq]
    rw [hfr]
  · intro msg s2 h
    by_cases hf : freqOfInterval iv = 0
    · rw [hf] at h
      have hz : Schedule.insert s 0 id = some (none, Schedule.delete s id) := by
        unfold Schedule.insert
        rw [if_pos rfl]
      rw [hz] at h
      exact absurd (congrArg Prod.fst (Option.some.inj h)) (by simp)
    · rcases insert_result s _ id hf _ h with ⟨c, tau, s3, -, -, -, hps⟩ | hps
      · exact absurd (congrArg Prod.fst hps) (by simp)
      · exact congrArg Prod.snd hps

/-- Witness for C7 (amended) at `interval_us = 600000`. -/
theorem c7_message_interval_witness :
    messageIntervalStep (List.replicate 4 none) 30 600000 =
      Schedule.insert (List.replicate 4 none)
        (min ⌊(1000000 : ℚ) / ((600000 : ℤ) : ℚ)⌋.toNat u32Max) 30 :=
  (c7_message_interval (List.replicate 4 none) 30 600000 (by decide)).1

end Core


end MspBridge
